import Mathlib

/-!
Verification of the StackBrief Substack client core.

Strings are modelled as `List Char`; HTTP responses as an explicit
`HttpResult` value (2xx payload or non-2xx status/statusText); the network
is a pure function from request parameters to responses, supplied as an
argument ("world"), so that each operation of the client becomes a pure
Lean function mirroring the TypeScript source.  Loops whose termination is
not structural take an explicit fuel argument (returning `none` on fuel
exhaustion); fuel is only a totality device and never changes the result
when sufficient.
-/

namespace StackBrief

/-- Constant from constants.ts: default page size for paginated requests. -/
def DEFAULT_PAGE_SIZE : Nat := 15

/-- Constant from constants.ts: maximum pages to fetch for category newsletters. -/
def MAX_CATEGORY_PAGES : Nat := 21

/-- Model of an HTTP response: a 2xx response with a parsed JSON payload, or a
non-2xx response with its status code and status text. -/
inductive HttpResult (α : Type) where
  | ok (payload : α)
  | err (status : Nat) (statusText : String)
deriving DecidableEq, Repr

/-- The error thrown on a non-2xx archive response
(`Failed to fetch posts: status statusText` in newsletter.ts): it carries the
status code and the status text. -/
structure FetchError where
  status : Nat
  statusText : String
deriving DecidableEq, Repr

/-- Post metadata (types.ts `PostMetadata`), restricted to the fields the
verified operations inspect. -/
structure PostMetadata where
  id : Nat
  publication_id : Nat
  canonical_url : List Char
deriving DecidableEq, Repr

instance {ε α : Type} [DecidableEq ε] [DecidableEq α] : DecidableEq (Except ε α) := by
  intro a b
  cases a <;> cases b
  case error.error e1 e2 =>
    cases decEq e1 e2 with
    | isTrue h => exact isTrue (by rw [h])
    | isFalse h => exact isFalse (by intro hc; cases hc; exact h rfl)
  case error.ok e1 v2 => exact isFalse (by intro hc; cases hc)
  case ok.error v1 e2 => exact isFalse (by intro hc; cases hc)
  case ok.ok v1 v2 =>
    cases decEq v1 v2 with
    | isTrue h => exact isTrue (by rw [h])
    | isFalse h => exact isFalse (by intro hc; cases hc; exact h rfl)

/-- Truthiness of the optional `limit` parameter (a JavaScript `number |
undefined`): `if (limit && ...)` is taken only when `limit` is present and
non-zero. -/
def limitTruthy : Option Nat → Bool
  | none => false
  | some l => l != 0

/-- Newsletter.fetchPaginatedPosts (newsletter.ts lines 122-169), embedded over
an abstract archive server mapping each requested `offset` to the response of
`GET {url}/api/v1/archive?...&offset=...&limit=pageSize`.  Returns `none` when
the fuel runs out, otherwise the call's outcome together with the trace of
offsets fetched, in order.  The loop body follows the source exactly: fetch;
throw on non-2xx; break on an empty (or null) items array; push the items;
advance the offset by `pageSize`; return the accumulator truncated to `limit`
when a truthy `limit` has been reached; stop after a page shorter than
`pageSize`. -/
def fetchPaginatedPosts (server : Nat → HttpResult (List PostMetadata))
    (limit : Option Nat) (pageSize : Nat) :
    Nat → Nat → List PostMetadata →
    Option (Except FetchError (List PostMetadata) × List Nat)
  | 0, _, _ => none
  | fuel + 1, offset, results =>
    match server offset with
    | .err status text => some (.error ⟨status, text⟩, [offset])
    | .ok items =>
      if items.isEmpty then
        some (.ok results, [offset])
      else
        let results' := results ++ items
        if limitTruthy limit && limit.getD 0 ≤ results'.length then
          some (.ok (results'.take (limit.getD 0)), [offset])
        else if items.length < pageSize then
          some (.ok results', [offset])
        else
          match fetchPaginatedPosts server limit pageSize fuel (offset + pageSize) results' with
          | none => none
          | some (r, tr) => some (r, offset :: tr)

/-- The archive server of a mocked finite archive: a request at `offset` with
page size `pageSize` answers the corresponding slice of the archive. -/
def sliceServer (archive : List PostMetadata) (pageSize : Nat) :
    Nat → HttpResult (List PostMetadata) :=
  fun offset => .ok ((archive.drop offset).take pageSize)

/-- A small distinct metadata record for mocked archives. -/
def mkItem (n : Nat) : PostMetadata := ⟨n, 0, []⟩

/-- Newsletter data for a category page (types.ts `NewsletterData`), restricted
to the field the verified operations inspect. -/
structure NewsletterData where
  base_url : List Char
deriving DecidableEq, Repr

/-- Response of `GET .../category/public/id/all?page=N`
(types.ts `CategoryNewslettersResponse`). -/
structure CategoryNewslettersResponse where
  publications : List NewsletterData
  more : Bool
deriving DecidableEq, Repr

/-- The page-fetching loop of Category.fetchNewslettersData (category.ts lines
119-168), over an abstract server mapping a page number to its response.
Returns the outcome together with the number of page fetches issued.  The
source loop: `while (more && pageNum <= MAX_CATEGORY_PAGES)` fetch page
`pageNum`; throw on non-2xx; append `data.publications`; increment `pageNum`;
set `more := data.more`. -/
def fetchNewslettersData (server : Nat → HttpResult CategoryNewslettersResponse)
    (pageNum : Nat) (more : Bool) (acc : List NewsletterData) :
    Except FetchError (List NewsletterData) × Nat :=
  if more && pageNum ≤ MAX_CATEGORY_PAGES then
    match server pageNum with
    | .err status text => (.error ⟨status, text⟩, 1)
    | .ok data =>
      let rest := fetchNewslettersData server (pageNum + 1) data.more (acc ++ data.publications)
      (rest.1, rest.2 + 1)
  else
    (.ok acc, 0)
termination_by MAX_CATEGORY_PAGES + 1 - pageNum
decreasing_by
  rename_i h
  simp only [Bool.and_eq_true, decide_eq_true_eq] at h
  omega

/-- A mocked 5-item archive. -/
def archive5 : List PostMetadata := (List.range 5).map mkItem

/-- A mocked 10-item archive. -/
def archive10 : List PostMetadata := (List.range 10).map mkItem

theorem fetchPaginated_noLimit_spec (pages : Nat → List PostMetadata)
    (pageSize : Nat) :
    ∀ (fuel offset : Nat) (acc : List PostMetadata)
      (result : Except FetchError (List PostMetadata)) (trace : List Nat),
    fetchPaginatedPosts (fun off => .ok (pages off)) none pageSize fuel offset acc =
      some (result, trace) →
    trace = (List.range trace.length).map (fun i => offset + i * pageSize)
    ∧ result = .ok (acc ++ (trace.map pages).flatten)
    ∧ trace ≠ []
    ∧ (∀ i, i + 1 < trace.length →
        pageSize ≤ (pages (offset + i * pageSize)).length ∧ pages (offset + i * pageSize) ≠ [])
    ∧ (∀ last, trace.getLast? = some last →
        pages last = [] ∨ (pages last).length < pageSize) := by
  intro fuel
  induction fuel with
  | zero => intro offset acc result trace h; simp [fetchPaginatedPosts] at h
  | succ n ih =>
    intro offset acc result trace h
    simp only [fetchPaginatedPosts] at h
    by_cases hemp : (pages offset).isEmpty
    · simp only [hemp, if_true, Option.some.injEq, Prod.mk.injEq] at h
      obtain ⟨hr, ht⟩ := h
      subst ht
      refine ⟨by simp [List.range_succ], ?_, by simp, ?_, ?_⟩
      · rw [← hr]; simp [List.isEmpty_iff.mp hemp]
      · intro i hi; simp at hi
      · intro last hlast
        simp only [List.getLast?_singleton, Option.some.injEq] at hlast
        subst hlast
        exact Or.inl (List.isEmpty_iff.mp hemp)
    · simp only [hemp, limitTruthy, Bool.false_and, Bool.false_eq_true, if_false] at h
      by_cases hshort : (pages offset).length < pageSize
      · simp only [hshort, if_true, Option.some.injEq, Prod.mk.injEq] at h
        obtain ⟨hr, ht⟩ := h
        subst ht
        refine ⟨by simp [List.range_succ], ?_, by simp, ?_, ?_⟩
        · rw [← hr]; simp
        · intro i hi; simp at hi
        · intro last hlast
          simp only [List.getLast?_singleton, Option.some.injEq] at hlast
          subst hlast
          exact Or.inr hshort
      · simp only [hshort, if_false] at h
        cases hrec : fetchPaginatedPosts (fun off => .ok (pages off)) none pageSize n
            (offset + pageSize) (acc ++ pages offset) with
        | none => rw [hrec] at h; simp at h
        | some p =>
          obtain ⟨r, tr⟩ := p
          rw [hrec] at h
          simp only [Option.some.injEq, Prod.mk.injEq] at h
          obtain ⟨hr, ht⟩ := h
          subst ht
          subst hr
          obtain ⟨ih1, ih2, ih3, ih4, ih5⟩ :=
            ih (offset + pageSize) (acc ++ pages offset) r tr hrec
          refine ⟨?_, ?_, by simp, ?_, ?_⟩
          · simp only [List.length_cons, List.range_succ_eq_map, List.map_cons, List.map_map]
            refine List.cons_eq_cons.mpr ⟨by omega, ?_⟩
            conv_lhs => rw [ih1]
            apply List.map_congr_left
            intro i _
            simp only [Function.comp_apply, Nat.succ_eq_add_one]
            ring
          · rw [ih2]
            simp [List.append_assoc]
          · intro i hi
            match i with
            | 0 =>
              refine ⟨?_, ?_⟩
              · simpa using Nat.le_of_not_lt hshort
              · simpa using fun hc => hemp (by simp [hc])
            | j + 1 =>
              have harith : offset + pageSize + j * pageSize = offset + (j + 1) * pageSize := by
                ring
              have hj := ih4 j (by simpa using hi)
              rw [harith] at hj
              exact hj
          · intro last hlast
            apply ih5
            cases tr with
            | nil => exact absurd rfl ih3
            | cons a t => simpa using hlast

/-- Claim C1: with no limit, fetchPaginatedPosts issues one archive GET per
page at offsets 0, pageSize, 2*pageSize, ..., appends each page's items to the
accumulator, every page before the last had at least pageSize items (the loop
never stops early), and the last fetched page is empty or shorter than
pageSize with no request issued after it; concretely, with pageSize = 2
against a mocked 5-item archive it returns exactly the 5 items across 3 page
fetches at offsets 0, 2, 4, with no 4th request. -/
theorem claim_C1 (pages : Nat → List PostMetadata) (pageSize fuel : Nat)
    (result : Except FetchError (List PostMetadata)) (trace : List Nat)
    (h : fetchPaginatedPosts (fun off => .ok (pages off)) none pageSize fuel 0 [] =
      some (result, trace)) :
    (trace = (List.range trace.length).map (fun i => i * pageSize)
     ∧ result = .ok ((trace.map pages).flatten)
     ∧ trace ≠ []
     ∧ (∀ i, i + 1 < trace.length → pageSize ≤ (pages (i * pageSize)).length)
     ∧ (∀ last, trace.getLast? = some last →
         pages last = [] ∨ (pages last).length < pageSize))
    ∧ fetchPaginatedPosts (sliceServer archive5 2) none 2 10 0 [] =
        some (.ok archive5, [0, 2, 4]) := by
  obtain ⟨h1, h2, h3, h4, h5⟩ := fetchPaginated_noLimit_spec pages pageSize fuel 0 [] result trace h
  refine ⟨⟨?_, by simpa using h2, h3, ?_, h5⟩, by decide⟩
  · rw [h1]; simp
  · intro i hi
    have := h4 i hi
    simpa using this.1

/-- Witness for claim C1 at the mocked 5-item archive with pageSize 2. -/
theorem claim_C1_witness : ([0, 2, 4] : List Nat) ≠ [] :=
  (claim_C1 (fun off => (archive5.drop off).take 2) 2 10 (Except.ok archive5) [0, 2, 4]
    (by decide)).1.2.2.1

theorem fetchPaginated_limit_spec (pages : Nat → List PostMetadata)
    (l pageSize : Nat) (hl : 1 ≤ l) :
    ∀ (fuel offset : Nat) (acc res : List PostMetadata) (trace : List Nat),
    acc.length < l →
    fetchPaginatedPosts (fun off => .ok (pages off)) (some l) pageSize fuel offset acc =
      some (.ok res, trace) →
    res.length ≤ l
    ∧ (l ≤ (acc ++ (trace.map pages).flatten).length →
        res = (acc ++ (trace.map pages).flatten).take l)
    ∧ (∀ k, k < trace.length → (acc ++ ((trace.take k).map pages).flatten).length < l) := by
  intro fuel
  induction fuel with
  | zero => intro offset acc res trace hacc h; simp [fetchPaginatedPosts] at h
  | succ n ih =>
    intro offset acc res trace hacc h
    simp only [fetchPaginatedPosts] at h
    by_cases hemp : (pages offset).isEmpty
    · simp only [hemp, if_true, Option.some.injEq, Prod.mk.injEq, Except.ok.injEq] at h
      obtain ⟨hr, ht⟩ := h
      subst ht
      subst hr
      have hpe : pages offset = [] := List.isEmpty_iff.mp hemp
      refine ⟨Nat.le_of_lt hacc, ?_, ?_⟩
      · intro hreach
        simp [hpe] at hreach
        omega
      · intro k hk
        have hk0 : k = 0 := by simp at hk; omega
        subst hk0
        simpa using hacc
    · have hlt : limitTruthy (some l) = true := by
        simp only [limitTruthy, bne_iff_ne, ne_eq]
        omega
      simp only [hemp, hlt, Bool.true_and, Bool.false_eq_true, if_false, Option.getD_some,
        decide_eq_true_eq] at h
      by_cases hreach : l ≤ (acc ++ pages offset).length
      · rw [if_pos hreach] at h
        simp only [Option.some.injEq, Prod.mk.injEq, Except.ok.injEq] at h
        obtain ⟨hr, ht⟩ := h
        subst ht
        subst hr
        refine ⟨by simp, ?_, ?_⟩
        · intro _
          simp
        · intro k hk
          have hk0 : k = 0 := by simp at hk; omega
          subst hk0
          simpa using hacc
      · rw [if_neg hreach] at h
        have hlen : (acc ++ pages offset).length < l := Nat.lt_of_not_le hreach
        by_cases hshort : (pages offset).length < pageSize
        · simp only [hshort, if_true, Option.some.injEq, Prod.mk.injEq, Except.ok.injEq] at h
          obtain ⟨hr, ht⟩ := h
          subst ht
          subst hr
          refine ⟨Nat.le_of_lt hlen, ?_, ?_⟩
          · intro hge
            simp at hge
            simp at hlen
            omega
          · intro k hk
            have hk0 : k = 0 := by simp at hk; omega
            subst hk0
            simpa using hacc
        · simp only [hshort, if_false] at h
          cases hrec : fetchPaginatedPosts (fun off => .ok (pages off)) (some l) pageSize n
              (offset + pageSize) (acc ++ pages offset) with
          | none => rw [hrec] at h; simp at h
          | some p =>
            obtain ⟨r, tr⟩ := p
            rw [hrec] at h
            simp only [Option.some.injEq, Prod.mk.injEq] at h
            obtain ⟨hr, ht⟩ := h
            subst ht
            subst hr
            obtain ⟨ih1, ih2, ih3⟩ :=
              ih (offset + pageSize) (acc ++ pages offset) res tr hlen hrec
            refine ⟨ih1, ?_, ?_⟩
            · intro hge
              have : l ≤ ((acc ++ pages offset) ++ (tr.map pages).flatten).length := by
                simpa [List.append_assoc] using hge
              have := ih2 this
              rw [this]
              simp [List.append_assoc]
            · intro k hk
              match k with
              | 0 => simpa using hacc
              | j + 1 =>
                have := ih3 j (by simpa using hk)
                simpa [List.append_assoc] using this

/-- Claim C2: with a positive limit, fetchPaginatedPosts returns at most
`limit` items; whenever the items accumulated across the fetched pages reach
the limit, the result is that accumulation truncated to exactly `limit` items;
and before every fetch it issues, the accumulated count is still below the
limit (no fetch beyond those needed); concretely, with limit = 3 against a
mocked 10-item archive (default page size) it returns exactly 3 items after a
single page fetch. -/
theorem claim_C2 (pages : Nat → List PostMetadata) (l pageSize fuel : Nat)
    (res : List PostMetadata) (trace : List Nat) (hl : 1 ≤ l)
    (h : fetchPaginatedPosts (fun off => .ok (pages off)) (some l) pageSize fuel 0 [] =
      some (.ok res, trace)) :
    (res.length ≤ l
     ∧ (l ≤ ((trace.map pages).flatten).length →
         res = ((trace.map pages).flatten).take l ∧ res.length = l)
     ∧ (∀ k, k < trace.length → (((trace.take k).map pages).flatten).length < l))
    ∧ fetchPaginatedPosts (sliceServer archive10 DEFAULT_PAGE_SIZE) (some 3) DEFAULT_PAGE_SIZE
        10 0 [] = some (.ok ((List.range 3).map mkItem), [0]) := by
  obtain ⟨h1, h2, h3⟩ :=
    fetchPaginated_limit_spec pages l pageSize hl fuel 0 [] res trace (by simpa using hl) h
  refine ⟨⟨h1, ?_, ?_⟩, by decide⟩
  · intro hge
    have e := h2 (by simpa using hge)
    simp only [List.nil_append] at e
    refine ⟨e, ?_⟩
    rw [e, List.length_take]
    exact Nat.min_eq_left hge
  · intro k hk
    simpa using h3 k hk

/-- Witness for claim C2 at the mocked 10-item archive with limit 3. -/
theorem claim_C2_witness : ((List.range 3).map mkItem).length ≤ 3 :=
  (claim_C2 (fun off => (archive10.drop off).take DEFAULT_PAGE_SIZE) 3 DEFAULT_PAGE_SIZE 10
    ((List.range 3).map mkItem) [0] (by decide) (by decide)).1.1

/-- Claim C3: if the pagination run completes and any fetched page's archive
GET returned a non-2xx response, then that page is the last one fetched and
the whole call fails with a FetchError carrying that response's status code
and status text — no accumulated items are returned. -/
theorem claim_C3 (server : Nat → HttpResult (List PostMetadata)) (limit : Option Nat)
    (pageSize fuel offset : Nat) (acc : List PostMetadata)
    (result : Except FetchError (List PostMetadata)) (trace : List Nat)
    (h : fetchPaginatedPosts server limit pageSize fuel offset acc = some (result, trace))
    (herr : ∃ off ∈ trace, ∃ s t, server off = .err s t) :
    ∃ s t last, trace.getLast? = some last ∧ server last = .err s t
      ∧ result = .error ⟨s, t⟩ ∧ ∀ items, result ≠ .ok items := by
  induction fuel generalizing offset acc result trace with
  | zero => simp [fetchPaginatedPosts] at h
  | succ n ih =>
    simp only [fetchPaginatedPosts] at h
    cases hsrv : server offset with
    | err s t =>
      rw [hsrv] at h
      simp only [Option.some.injEq, Prod.mk.injEq] at h
      obtain ⟨hr, ht⟩ := h
      subst ht
      subst hr
      exact ⟨s, t, offset, by simp, hsrv, rfl, by intro items hc; cases hc⟩
    | ok items =>
      rw [hsrv] at h
      dsimp only at h
      by_cases hemp : items.isEmpty = true
      · rw [if_pos hemp] at h
        simp only [Option.some.injEq, Prod.mk.injEq] at h
        obtain ⟨hr, ht⟩ := h
        subst ht
        obtain ⟨off, hoff, s, t, hst⟩ := herr
        simp only [List.mem_singleton] at hoff
        subst hoff
        rw [hsrv] at hst
        cases hst
      · rw [if_neg hemp] at h
        by_cases hreach : (limitTruthy limit && limit.getD 0 ≤ (acc ++ items).length) = true
        · rw [if_pos hreach] at h
          simp only [Option.some.injEq, Prod.mk.injEq] at h
          obtain ⟨hr, ht⟩ := h
          subst ht
          obtain ⟨off, hoff, s, t, hst⟩ := herr
          simp only [List.mem_singleton] at hoff
          subst hoff
          rw [hsrv] at hst
          cases hst
        · rw [if_neg hreach] at h
          by_cases hshort : items.length < pageSize
          · rw [if_pos hshort] at h
            simp only [Option.some.injEq, Prod.mk.injEq] at h
            obtain ⟨hr, ht⟩ := h
            subst ht
            obtain ⟨off, hoff, s, t, hst⟩ := herr
            simp only [List.mem_singleton] at hoff
            subst hoff
            rw [hsrv] at hst
            cases hst
          · rw [if_neg hshort] at h
            cases hrec : fetchPaginatedPosts server limit pageSize n (offset + pageSize)
                (acc ++ items) with
            | none => rw [hrec] at h; simp at h
            | some p =>
              obtain ⟨r, tr⟩ := p
              rw [hrec] at h
              simp only [Option.some.injEq, Prod.mk.injEq] at h
              obtain ⟨hr, ht⟩ := h
              subst ht
              subst hr
              obtain ⟨off, hoff, s, t, hst⟩ := herr
              have hofftr : off ∈ tr := by
                rcases List.mem_cons.mp hoff with hcase | hcase
                · subst hcase
                  rw [hsrv] at hst
                  cases hst
                · exact hcase
              obtain ⟨s', t', last, hlast, hsrv', hres, hnok⟩ :=
                ih (offset + pageSize) (acc ++ items) r tr hrec ⟨off, hofftr, s, t, hst⟩
              refine ⟨s', t', last, ?_, hsrv', hres, hnok⟩
              cases tr with
              | nil => simp at hlast
              | cons a ts => simpa using hlast

/-- Witness for claim C3: a mocked archive whose second page answers 500
Internal Server Error aborts the whole call with that FetchError. -/
theorem claim_C3_witness :
    ∃ s t last, ([0, 2] : List Nat).getLast? = some last
      ∧ (fun off => if off = 0 then HttpResult.ok [mkItem 0, mkItem 1]
          else HttpResult.err 500 "Internal Server Error") last = .err s t
      ∧ (Except.error ⟨s, t⟩ : Except FetchError (List PostMetadata)) = .error ⟨s, t⟩
      ∧ True := by
  obtain ⟨s, t, last, h1, h2, h3, _⟩ :=
    claim_C3 (fun off => if off = 0 then HttpResult.ok [mkItem 0, mkItem 1]
        else HttpResult.err 500 "Internal Server Error") none 2 10 0 []
      (.error ⟨500, "Internal Server Error"⟩) [0, 2] (by decide)
      ⟨2, by decide, 500, "Internal Server Error", by decide⟩
  exact ⟨s, t, last, h1, h2, rfl, trivial⟩

/-- Claim C10: a caller-supplied limit of 0 is falsy in the source's
`if (limit && ...)` check, so the run is identical to a run with no limit at
every fuel, offset and accumulator; concretely, limit = 0 against the mocked
5-item archive returns all 5 items rather than an empty list. -/
theorem claim_C10 :
    (∀ (server : Nat → HttpResult (List PostMetadata)) (pageSize fuel offset : Nat)
      (acc : List PostMetadata),
      fetchPaginatedPosts server (some 0) pageSize fuel offset acc =
        fetchPaginatedPosts server none pageSize fuel offset acc)
    ∧ fetchPaginatedPosts (sliceServer archive5 2) (some 0) 2 10 0 [] =
        some (.ok archive5, [0, 2, 4]) := by
  have key : ∀ (server : Nat → HttpResult (List PostMetadata)) (pageSize fuel offset : Nat)
      (acc : List PostMetadata),
      fetchPaginatedPosts server (some 0) pageSize fuel offset acc =
        fetchPaginatedPosts server none pageSize fuel offset acc := by
    intro server pageSize fuel
    induction fuel with
    | zero => intro offset acc; rfl
    | succ n ihn =>
      intro offset acc
      simp only [fetchPaginatedPosts, limitTruthy]
      cases server offset with
      | err s t => rfl
      | ok items =>
        simp only [bne_self_eq_false, Bool.false_and, Bool.false_eq_true, if_false]
        rw [ihn]
  exact ⟨key, by decide⟩

theorem fetchNewslettersData_count_le
    (server : Nat → HttpResult CategoryNewslettersResponse) :
    ∀ (pageNum : Nat) (more : Bool) (acc : List NewsletterData),
    (fetchNewslettersData server pageNum more acc).2 ≤ MAX_CATEGORY_PAGES + 1 - pageNum := by
  have main : ∀ (k pageNum : Nat), MAX_CATEGORY_PAGES + 1 - pageNum ≤ k →
      ∀ (more : Bool) (acc : List NewsletterData),
      (fetchNewslettersData server pageNum more acc).2 ≤ MAX_CATEGORY_PAGES + 1 - pageNum := by
    intro k
    induction k with
    | zero =>
      intro pageNum hk more acc
      rw [fetchNewslettersData]
      have : ¬ (pageNum ≤ MAX_CATEGORY_PAGES) := by omega
      simp [this]
    | succ m ihm =>
      intro pageNum hk more acc
      rw [fetchNewslettersData]
      by_cases hcond : (more && pageNum ≤ MAX_CATEGORY_PAGES) = true
      · rw [if_pos hcond]
        have hle : pageNum ≤ MAX_CATEGORY_PAGES := by
          have hc := hcond
          simp only [Bool.and_eq_true, decide_eq_true_eq] at hc
          exact hc.2
        cases server pageNum with
        | err s t =>
          simp only
          omega
        | ok data =>
          simp only
          have := ihm (pageNum + 1) (by omega) data.more (acc ++ data.publications)
          omega
      · rw [if_neg hcond]
        simp
  intro pageNum more acc
  exact main (MAX_CATEGORY_PAGES + 1 - pageNum) pageNum (Nat.le_refl _) more acc

theorem fetchNewslettersData_allMore (f : Nat → List NewsletterData) :
    ∀ (pageNum : Nat) (acc : List NewsletterData),
    (fetchNewslettersData (fun n => .ok ⟨f n, true⟩) pageNum true acc).2 =
      MAX_CATEGORY_PAGES + 1 - pageNum := by
  have main : ∀ (k pageNum : Nat), MAX_CATEGORY_PAGES + 1 - pageNum ≤ k →
      ∀ (acc : List NewsletterData),
      (fetchNewslettersData (fun n => .ok ⟨f n, true⟩) pageNum true acc).2 =
        MAX_CATEGORY_PAGES + 1 - pageNum := by
    intro k
    induction k with
    | zero =>
      intro pageNum hk acc
      rw [fetchNewslettersData]
      have : ¬ (pageNum ≤ MAX_CATEGORY_PAGES) := by omega
      simp [this]
      omega
    | succ m ihm =>
      intro pageNum hk acc
      rw [fetchNewslettersData]
      by_cases hle : pageNum ≤ MAX_CATEGORY_PAGES
      · have hcond : (true && decide (pageNum ≤ MAX_CATEGORY_PAGES)) = true := by
          simp only [Bool.true_and, decide_eq_true_eq]
          exact hle
        rw [if_pos hcond]
        have := ihm (pageNum + 1) (by omega) (acc ++ f pageNum)
        simp only at this ⊢
        omega
      · have hcond : ¬ ((true && decide (pageNum ≤ MAX_CATEGORY_PAGES)) = true) := by
          simp only [Bool.true_and, decide_eq_true_eq]
          exact hle
        rw [if_neg hcond]
        simp only
        omega
  intro pageNum acc
  exact main (MAX_CATEGORY_PAGES + 1 - pageNum) pageNum (Nat.le_refl _) acc

/-- Counterexample to claim C5 as stated: when every page reports more = true,
the crawl starting at page 0 issues MAX_CATEGORY_PAGES + 1 = 22 page fetches
(pages 0 through 21 inclusive, since the guard is `pageNum <=
MAX_CATEGORY_PAGES`), which exceeds the 21-page bound. -/
theorem claim_C5_counterexample :
    (fetchNewslettersData (fun _ => .ok ⟨[], true⟩) 0 true []).2 = MAX_CATEGORY_PAGES + 1
    ∧ ¬ ((fetchNewslettersData (fun _ => .ok ⟨[], true⟩) 0 true []).2 ≤ MAX_CATEGORY_PAGES) := by
  have h := fetchNewslettersData_allMore (fun _ => []) 0 []
  constructor
  · exact h
  · rw [h]
    decide

/-- Claim C5 (amended): the category crawl terminates even when every page
reports more = true, because the loop runs only while the server signals more
pages AND the page counter (starting at 0) has not exceeded
MAX_CATEGORY_PAGES; hence the number of page fetches never exceeds
MAX_CATEGORY_PAGES + 1 = 22 (pages 0 through 21), and with every page
reporting more = true it is exactly 22. -/
theorem claim_C5 (server : Nat → HttpResult CategoryNewslettersResponse) :
    ((fetchNewslettersData server 0 true []).2 ≤ MAX_CATEGORY_PAGES + 1)
    ∧ (∀ pageNum acc, MAX_CATEGORY_PAGES < pageNum →
        fetchNewslettersData server pageNum true acc = (.ok acc, 0))
    ∧ (∀ pageNum acc, fetchNewslettersData server pageNum false acc = (.ok acc, 0))
    ∧ (∀ f : Nat → List NewsletterData,
        (fetchNewslettersData (fun n => .ok ⟨f n, true⟩) 0 true []).2 =
          MAX_CATEGORY_PAGES + 1) := by
  refine ⟨?_, ?_, ?_, ?_⟩
  · simpa using fetchNewslettersData_count_le server 0 true []
  · intro pageNum acc hgt
    rw [fetchNewslettersData]
    have : ¬ (pageNum ≤ MAX_CATEGORY_PAGES) := by omega
    simp [this]
  · intro pageNum acc
    rw [fetchNewslettersData]
    simp
  · intro f
    simpa using fetchNewslettersData_allMore f 0 []

/-- Witness for claim C5: at page number 22 the crawl exits immediately. -/
theorem claim_C5_witness :
    fetchNewslettersData (fun _ => .ok ⟨[], true⟩) 22 true [] = (.ok [], 0) :=
  (claim_C5 (fun _ => .ok ⟨[], true⟩)).2.1 22 [] (by decide)

/-! URL and string helpers shared by the Post, User and Newsletter embeddings.
Strings are lists of characters. -/

/-- JS String.split on a single separator character: always returns at least
one (possibly empty) segment. -/
def splitOnChar (sep : Char) : List Char → List (List Char)
  | [] => [[]]
  | c :: rest =>
    let r := splitOnChar sep rest
    if c = sep then [] :: r
    else (c :: r.headD []) :: r.tail

/-- The effect of `.replace(/^\/|\/$/g, "")` (post.ts line 92, user.ts line
25): the global regex matches one leading slash and one trailing slash of the
original string (a sole "/" is consumed by the leading alternative only). -/
def stripEdgeSlash (s : List Char) : List Char :=
  if s.getLast? = some '/' ∧ 2 ≤ s.length then
    (if s.head? = some '/' then s.tail else s).dropLast
  else
    (if s.head? = some '/' then s.tail else s)

/-- Split a string at the first occurrence of a (non-empty) pattern,
returning the part before it and the part after it. -/
def breakOnSub (pat : List Char) : List Char → Option (List Char × List Char)
  | [] => none
  | c :: rest =>
    if List.isPrefixOf pat (c :: rest) then some ([], (c :: rest).drop pat.length)
    else
      match breakOnSub pat rest with
      | some (x, y) => some (c :: x, y)
      | none => none

/-- The fields of the JS `URL` object that the source reads.  `protocol`
includes the trailing colon, `host` includes any port and is lowercased,
`pathname` starts with "/" (defaulted when absent). -/
structure ParsedURL where
  protocol : List Char
  host : List Char
  pathname : List Char
deriving DecidableEq, Repr

/-- Simplified model of `new URL(url)`: scheme before "://", authority up to
the first "/", "?" or "#", pathname up to the first "?" or "#".  Returns none
(the constructor throws) when there is no "://", or scheme or authority is
empty.  Exotic URL normalizations of the WHATWG parser are out of model
scope. -/
def parseURL (url : List Char) : Option ParsedURL :=
  match breakOnSub (':' :: '/' :: '/' :: []) url with
  | none => none
  | some (scheme, rest) =>
    if scheme = [] then none
    else
      let authority := rest.takeWhile (fun c => !(c = '/' || c = '?' || c = '#'))
      if authority = [] then none
      else
        let after := rest.drop authority.length
        let path := after.takeWhile (fun c => !(c = '?' || c = '#'))
        some { protocol := scheme ++ [':'],
               host := authority.map Char.toLower,
               pathname := if path = [] then ['/'] else path }

/-! The Identity resolver: User and resolveHandleRedirect (user.ts). -/

/-- Outcome of the redirect probe `GET https://substack.com/@handle` with
redirect following (user.ts 16-20): whether the final response was 2xx, and
the final response URL. -/
structure ProbeResponse where
  respOk : Bool
  url : List Char
deriving DecidableEq, Repr

/-- resolveHandleRedirect (user.ts lines 9-46) over an abstract probe: on a
2xx final response, parse the final URL, take its path segments after
stripping edge slashes, and when the first segment starts with "@" and names
a non-empty handle different from the old one, return it; in every other
case (including a thrown URL parse, caught by the catch in the source) return
none. -/
def resolveHandleRedirect (probe : List Char → ProbeResponse)
    (oldHandle : List Char) : Option (List Char) :=
  let r := probe oldHandle
  if r.respOk then
    match parseURL r.url with
    | none => none
    | some u =>
      let pathParts := splitOnChar '/' (stripEdgeSlash u.pathname)
      if 0 < pathParts.length ∧ (pathParts.headD []).head? = some '@' then
        let newHandle := (pathParts.headD []).tail
        if newHandle ≠ [] ∧ newHandle ≠ oldHandle then some newHandle else none
      else none
  else none

/-- User profile payload (types.ts UserProfile), restricted to the fields the
verified operations inspect. -/
structure UserProfile where
  id : Nat
  name : List Char
deriving DecidableEq, Repr

/-- The profile endpoint for a handle (user.ts line 70):
`https://substack.com/api/v1/user/username/public_profile`. -/
def profileEndpoint (username : List Char) : List Char :=
  "https://substack.com/api/v1/user/".toList ++ username ++ "/public_profile".toList

/-- The mutable fields of a User instance (user.ts 53-58). -/
structure UserState where
  username : List Char
  originalUsername : List Char
  followRedirects : Bool
  endpoint : List Char
  userData : Option UserProfile
  redirectAttempted : Bool
deriving DecidableEq, Repr

/-- The User constructor (user.ts 66-71). -/
def User.init (username : List Char) (followRedirects : Bool) : UserState :=
  { username := username
    originalUsername := username
    followRedirects := followRedirects
    endpoint := profileEndpoint username
    userData := none
    redirectAttempted := false }

/-- User.updateHandle (user.ts 79-83). -/
def updateHandle (st : UserState) (newHandle : List Char) : UserState :=
  { st with username := newHandle, endpoint := profileEndpoint newHandle }

/-- The network world of a user fetch: profile responses keyed by the request
URL, and the redirect probe keyed by the handle. -/
structure UserWorld where
  profile : List Char → HttpResult UserProfile
  probe : List Char → ProbeResponse

/-- The two throw sites of User.fetchUserData: `Failed to fetch user data:
status statusText` and `Failed to fetch user data even after redirect to
newHandle: status` (the latter carries no status text in the source). -/
inductive UserError where
  | fetchFailed (status : Nat) (statusText : String)
  | redirectRetryFailed (newHandle : List Char) (status : Nat)
deriving DecidableEq, Repr

/-- User.fetchUserData (user.ts lines 91-164).  Returns the call's outcome,
the updated instance state, the number of profile-endpoint fetches and the
number of redirect-probe calls.  Mirrors the source: return the cache unless
empty or forced; fetch the endpoint; 2xx caches and returns; a 404 with
redirect following enabled and no prior redirect attempt sets the
redirectAttempted flag, resolves the redirect (one probe call), and on a new
handle updates the handle and endpoint and retries exactly once (2xx caches
and returns, otherwise the retry error is thrown); every other failure throws
with the original response's status and status text. -/
def fetchUserData (w : UserWorld) (st : UserState) (forceRefresh : Bool) :
    Except UserError UserProfile × UserState × Nat × Nat :=
  match st.userData, forceRefresh with
  | some d, false => (.ok d, st, 0, 0)
  | _, _ =>
    match w.profile st.endpoint with
    | .ok p => (.ok p, { st with userData := some p }, 1, 0)
    | .err status text =>
      if status = 404 ∧ st.followRedirects = true ∧ st.redirectAttempted = false then
        let st1 := { st with redirectAttempted := true }
        match resolveHandleRedirect w.probe st1.username with
        | some newHandle =>
          let st2 := updateHandle st1 newHandle
          match w.profile st2.endpoint with
          | .ok p => (.ok p, { st2 with userData := some p }, 2, 1)
          | .err s2 _ => (.error (.redirectRetryFailed newHandle s2), st2, 2, 1)
        | none => (.error (.fetchFailed status text), st1, 1, 1)
      else (.error (.fetchFailed status text), st, 1, 0)

/-- Claim C4: every explicit profile fetch performs at most two profile
endpoint calls and at most one redirect-probe call; a 404 with redirect
following enabled and no prior redirect attempt marks the attempt made,
probes once, and (when a new handle is discovered and answers 2xx) retries
the profile fetch exactly once at the new handle's endpoint; and a second
call on the resulting instance state that receives a fresh 404 never probes
again (the flag is consumed) and fails with the fetch error carrying that
response. -/
theorem claim_C4 (w w2 : UserWorld) (st : UserState) (force : Bool) :
    ((fetchUserData w st force).2.2.1 ≤ 2 ∧ (fetchUserData w st force).2.2.2 ≤ 1)
    ∧ (∀ t newHandle p,
        st.userData = none →
        w.profile st.endpoint = .err 404 t →
        st.followRedirects = true →
        st.redirectAttempted = false →
        resolveHandleRedirect w.probe st.username = some newHandle →
        w.profile (profileEndpoint newHandle) = .ok p →
        fetchUserData w st false =
          (.ok p,
           { st with
             redirectAttempted := true
             username := newHandle
             endpoint := profileEndpoint newHandle
             userData := some p }, 2, 1))
    ∧ (∀ t', st.redirectAttempted = true → st.userData = none →
        w2.profile st.endpoint = .err 404 t' →
        fetchUserData w2 st false = (.error (.fetchFailed 404 t'), st, 1, 0)) := by
  refine ⟨?_, ?_, ?_⟩
  · unfold fetchUserData
    split
    · exact ⟨by norm_num, by norm_num⟩
    · split
      · exact ⟨by norm_num, by norm_num⟩
      · split
        · dsimp only
          split
          · split
            · exact ⟨by norm_num, by norm_num⟩
            · exact ⟨by norm_num, by norm_num⟩
          · exact ⟨by norm_num, by norm_num⟩
        · exact ⟨by norm_num, by norm_num⟩
  · intro t newHandle p hud hprof hfr hra hres hretry
    unfold fetchUserData
    rw [hud]
    dsimp only
    rw [hprof]
    dsimp only
    rw [if_pos ⟨rfl, hfr, hra⟩]
    rw [hres]
    dsimp only [updateHandle]
    rw [hretry]
  · intro t' hra hud hprof
    unfold fetchUserData
    rw [hud]
    dsimp only
    rw [hprof]
    dsimp only
    rw [if_neg (by simp [hra])]

/-- World for the C4 witness: the old handle 404s, the probe resolves to a
new handle whose endpoint answers 2xx. -/
def worldA : UserWorld :=
  { profile := fun e =>
      if e = profileEndpoint "alice".toList then .err 404 "Not Found"
      else if e = profileEndpoint "newalice".toList then .ok ⟨1, "New Alice".toList⟩
      else .err 500 "Internal Server Error"
    probe := fun _ => ⟨true, "https://substack.com/@newalice".toList⟩ }

/-- Witness for claim C4: a fetch for "alice" that 404s, resolves the handle
redirect to "newalice" and succeeds on the single retry, with exactly 2
profile calls and 1 probe call. -/
theorem claim_C4_witness :
    fetchUserData worldA (User.init "alice".toList true) false =
      (.ok ⟨1, "New Alice".toList⟩,
       { User.init "alice".toList true with
         redirectAttempted := true
         username := "newalice".toList
         endpoint := profileEndpoint "newalice".toList
         userData := some ⟨1, "New Alice".toList⟩ }, 2, 1) :=
  (claim_C4 worldA worldA (User.init "alice".toList true) false).2.1
    "Not Found" "newalice".toList ⟨1, "New Alice".toList⟩
    rfl (by decide) rfl rfl (by decide) (by decide)

/-- The world of the C7 counterexample's first call: every profile request
404s and the probe finds no redirect, so the first fetch ends Failed. -/
def failWorldB : UserWorld :=
  { profile := fun _ => .err 404 "Not Found"
    probe := fun _ => ⟨false, []⟩ }

/-- The world of the C7 counterexample's second call: the server now answers
2xx. -/
def okWorldB : UserWorld :=
  { profile := fun _ => .ok ⟨7, "Bob".toList⟩
    probe := fun _ => ⟨false, []⟩ }

/-- Counterexample to claim C7 as stated: after a first profile fetch ends in
the Failed state (404, no redirect found), a subsequent non-forced call does
NOT return a cached failure without network activity — it performs 1 new
profile fetch (not 0), and here even succeeds, because a failed fetch caches
nothing. -/
theorem claim_C7_counterexample :
    (fetchUserData failWorldB (User.init "bob".toList true) false).1 =
      .error (.fetchFailed 404 "Not Found")
    ∧ (fetchUserData okWorldB
        ((fetchUserData failWorldB (User.init "bob".toList true) false).2.1) false).2.2.1 = 1
    ∧ (fetchUserData okWorldB
        ((fetchUserData failWorldB (User.init "bob".toList true) false).2.1) false).1 =
        .ok ⟨7, "Bob".toList⟩
    ∧ ¬ ((fetchUserData okWorldB
        ((fetchUserData failWorldB (User.init "bob".toList true) false).2.1) false).2.2.1 = 0) := by
  decide

/-- Claim C7 (amended): once Fetched, the state is terminal for the instance
except under explicit forced refresh — a non-forced profile() call performs
no network fetch and returns the cached profile with the state unchanged.  A
Failed fetch caches nothing, so a subsequent non-forced call performs a new
network fetch (at least one profile request); with the redirect flag already
consumed it fails again whenever the server still answers non-2xx, but it can
succeed when the server recovers. -/
theorem claim_C7 (w : UserWorld) (st : UserState) :
    (∀ d, st.userData = some d → fetchUserData w st false = (.ok d, st, 0, 0))
    ∧ (st.userData = none → 1 ≤ (fetchUserData w st false).2.2.1)
    ∧ (∀ s t, st.userData = none → st.redirectAttempted = true →
        w.profile st.endpoint = .err s t →
        fetchUserData w st false = (.error (.fetchFailed s t), st, 1, 0)) := by
  refine ⟨?_, ?_, ?_⟩
  · intro d hud
    unfold fetchUserData
    rw [hud]
  · intro hud
    unfold fetchUserData
    rw [hud]
    dsimp only
    split
    · norm_num
    · split
      · split
        · split
          · norm_num
          · norm_num
        · norm_num
      · norm_num
  · intro s t hud hra hprof
    unfold fetchUserData
    rw [hud]
    dsimp only
    rw [hprof]
    dsimp only
    rw [if_neg (by simp [hra])]

/-! The Content Item constructor: Post (post.ts). -/

/-- The fields the Post constructor derives (post.ts 83-94). -/
structure PostCtor where
  url : List Char
  baseUrl : List Char
  slug : Option (List Char)
  endpoint : List Char
deriving DecidableEq, Repr

/-- Post constructor (post.ts 83-94): parse the URL (`new URL` throws on an
unparseable URL, modelled as none), set baseUrl to protocol + "//" + host,
strip one leading and one trailing slash from the pathname, split on "/",
and take the last element as the slug when the array is nonempty (JS split
always returns at least one element, so the null branch is dead code); the
endpoint interpolates the slug after baseUrl/api/v1/posts/. -/
def Post.ofUrl (url : List Char) : Option PostCtor :=
  match parseURL url with
  | none => none
  | some u =>
    let baseUrl := u.protocol ++ "//".toList ++ u.host
    let pathParts := splitOnChar '/' (stripEdgeSlash u.pathname)
    let slug := if 0 < pathParts.length then pathParts.getLast? else none
    some { url := url
           baseUrl := baseUrl
           slug := slug
           endpoint := baseUrl ++ "/api/v1/posts/".toList ++
             (match slug with | some sl => sl | none => "null".toList) }

/-- Modelled from the spec: the "last non-empty path segment" of a URL path,
the value claim C9 asserts for the slug. -/
def lastNonEmptySegment (pathname : List Char) : Option (List Char) :=
  ((splitOnChar '/' pathname).filter (fun seg => !seg.isEmpty)).getLast?

theorem splitOnChar_ne_nil (sep : Char) (s : List Char) : splitOnChar sep s ≠ [] := by
  cases s with
  | nil => simp [splitOnChar]
  | cons c rest =>
    simp only [splitOnChar]
    by_cases hc : c = sep
    · simp [hc]
    · simp [hc]

theorem splitOnChar_cons_sep (sep : Char) (s : List Char) :
    splitOnChar sep (sep :: s) = [] :: splitOnChar sep s := by
  simp [splitOnChar]

theorem splitOnChar_cons_ne (sep c : Char) (s : List Char) (hc : ¬ c = sep) :
    splitOnChar sep (c :: s) =
      (c :: (splitOnChar sep s).headD []) :: (splitOnChar sep s).tail := by
  simp [splitOnChar, hc]

theorem splitOnChar_append_sep (sep : Char) (s : List Char) :
    splitOnChar sep (s ++ [sep]) = splitOnChar sep s ++ [[]] := by
  induction s with
  | nil => simp [splitOnChar]
  | cons c rest ih =>
    by_cases hc : c = sep
    · subst hc
      simp only [List.cons_append, splitOnChar_cons_sep, ih, List.cons_append]
    · cases hsr : splitOnChar sep rest with
      | nil => exact absurd hsr (splitOnChar_ne_nil sep rest)
      | cons a l =>
        rw [List.cons_append, splitOnChar_cons_ne sep c _ hc,
          splitOnChar_cons_ne sep c rest hc, ih, hsr]
        simp

/-- Filtering out empty segments drops a leading empty segment. -/
theorem filter_nonempty_cons_nil (xs : List (List Char)) :
    ([] :: xs).filter (fun seg => !seg.isEmpty) = xs.filter (fun seg => !seg.isEmpty) := by
  simp [List.filter]

/-- Filtering out empty segments drops a trailing empty segment. -/
theorem filter_nonempty_append_nil (xs : List (List Char)) :
    (xs ++ [[]]).filter (fun seg => !seg.isEmpty) = xs.filter (fun seg => !seg.isEmpty) := by
  simp [List.filter_append]

/-- A list of non-empty segments is untouched by the empty-segment filter. -/
theorem filter_nonempty_of_all (xs : List (List Char)) (hall : ∀ seg ∈ xs, seg ≠ []) :
    xs.filter (fun seg => !seg.isEmpty) = xs := by
  apply List.filter_eq_self.mpr
  intro a ha
  simpa using hall a ha

/-- When the stripped path has no empty segments, filtering the raw path's
segments gives exactly the stripped path's segments. -/
theorem filter_split_strip (s : List Char)
    (hall : ∀ seg ∈ splitOnChar '/' (stripEdgeSlash s), seg ≠ []) :
    (splitOnChar '/' s).filter (fun seg => !seg.isEmpty) =
      splitOnChar '/' (stripEdgeSlash s) := by
  by_cases hhead : s.head? = some '/'
  · cases s with
    | nil => simp at hhead
    | cons c rest =>
      have hc : c = '/' := by simpa using hhead
      subst hc
      by_cases hlast : ('/' :: rest).getLast? = some '/' ∧ 2 ≤ ('/' :: rest).length
      · have hstrip : stripEdgeSlash ('/' :: rest) = rest.dropLast := by
          unfold stripEdgeSlash
          rw [if_pos hlast, if_pos hhead, List.tail_cons]
        rw [hstrip] at hall ⊢
        obtain ⟨hl, hlen⟩ := hlast
        have hrest : rest ≠ [] := by
          intro hcon
          subst hcon
          simp at hlen
        have hrl : rest.getLast? = some '/' := by
          cases rest with
          | nil => exact absurd rfl hrest
          | cons x xs => simpa using hl
        have hdecomp : rest.dropLast ++ ['/'] = rest :=
          List.dropLast_append_getLast? '/' (by simpa using hrl)
        rw [splitOnChar_cons_sep]
        conv_lhs => rw [← hdecomp]
        rw [splitOnChar_append_sep, filter_nonempty_cons_nil, filter_nonempty_append_nil]
        exact filter_nonempty_of_all _ hall
      · have hstrip : stripEdgeSlash ('/' :: rest) = rest := by
          unfold stripEdgeSlash
          rw [if_neg hlast, if_pos hhead, List.tail_cons]
        rw [hstrip] at hall ⊢
        rw [splitOnChar_cons_sep, filter_nonempty_cons_nil]
        exact filter_nonempty_of_all _ hall
  · by_cases hlast : s.getLast? = some '/' ∧ 2 ≤ s.length
    · have hstrip : stripEdgeSlash s = s.dropLast := by
        unfold stripEdgeSlash
        rw [if_pos hlast, if_neg hhead]
      rw [hstrip] at hall ⊢
      obtain ⟨hl, _⟩ := hlast
      have hdecomp : s.dropLast ++ ['/'] = s :=
        List.dropLast_append_getLast? '/' (by simpa using hl)
      conv_lhs => rw [← hdecomp]
      rw [splitOnChar_append_sep, filter_nonempty_append_nil]
      exact filter_nonempty_of_all _ hall
    · have hstrip : stripEdgeSlash s = s := by
        unfold stripEdgeSlash
        rw [if_neg hlast, if_neg hhead]
      rw [hstrip] at hall ⊢
      exact filter_nonempty_of_all _ hall

/-- Counterexample to claim C9 as stated: for the URL
https://example.com/p// the constructor's slug is the empty string (stripping
one trailing slash leaves "p/", whose last slash-separated segment is empty),
not the last non-empty path segment "p". -/
theorem claim_C9_counterexample :
    (Post.ofUrl "https://example.com/p//".toList).map PostCtor.slug = some (some [])
    ∧ lastNonEmptySegment "/p//".toList = some "p".toList
    ∧ (Post.ofUrl "https://example.com/p//".toList).map PostCtor.slug ≠
        some (lastNonEmptySegment "/p//".toList) := by
  decide

/-- Claim C9 (amended): for every parseable post URL the constructor works by
pure string parsing: baseUrl is the URL's scheme plus host (protocol + "//" +
host), and the slug is the last slash-separated segment of the path after
removing at most one leading and one trailing slash; whenever that stripped
path has no empty segments, the slug equals the last non-empty segment of
the URL's path (it differs, e.g., when the path ends in a double slash). -/
theorem claim_C9 (url : List Char) (u : ParsedURL) (hu : parseURL url = some u) :
    (Post.ofUrl url).map PostCtor.baseUrl = some (u.protocol ++ "//".toList ++ u.host)
    ∧ (Post.ofUrl url).map PostCtor.slug =
        some ((splitOnChar '/' (stripEdgeSlash u.pathname)).getLast?)
    ∧ ((∀ seg ∈ splitOnChar '/' (stripEdgeSlash u.pathname), seg ≠ []) →
        (Post.ofUrl url).map PostCtor.slug = some (lastNonEmptySegment u.pathname)) := by
  have hlen : 0 < (splitOnChar '/' (stripEdgeSlash u.pathname)).length :=
    List.length_pos.mpr (splitOnChar_ne_nil '/' (stripEdgeSlash u.pathname))
  refine ⟨?_, ?_, ?_⟩
  · simp only [Post.ofUrl, hu, Option.map_some']
  · simp only [Post.ofUrl, hu, Option.map_some']
    rw [if_pos hlen]
  · intro hall
    simp only [Post.ofUrl, hu, Option.map_some']
    rw [if_pos hlen]
    unfold lastNonEmptySegment
    rw [filter_split_strip u.pathname hall]

/-- Witness for claim C9 at the URL https://example.substack.com/p/my-post. -/
theorem claim_C9_witness :
    (Post.ofUrl "https://example.substack.com/p/my-post".toList).map PostCtor.slug =
      some (lastNonEmptySegment "/p/my-post".toList) :=
  (claim_C9 "https://example.substack.com/p/my-post".toList
    ⟨"https:".toList, "example.substack.com".toList, "/p/my-post".toList⟩
    (by decide)).2.2 (by decide)

/-- World for the C7 witness: a cached profile is returned without any
network call. -/
def cachedWorldC : UserWorld :=
  { profile := fun _ => .err 500 "Internal Server Error"
    probe := fun _ => ⟨false, []⟩ }

/-- Witness for claim C7: a User whose profile is already cached returns it
with zero network calls even against a failing server. -/
theorem claim_C7_witness :
    fetchUserData cachedWorldC
      { User.init "carol".toList true with userData := some ⟨3, "Carol".toList⟩ } false =
      (.ok ⟨3, "Carol".toList⟩,
       { User.init "carol".toList true with userData := some ⟨3, "Carol".toList⟩ }, 0, 0) :=
  (claim_C7 cachedWorldC
    { User.init "carol".toList true with userData := some ⟨3, "Carol".toList⟩ }).1
    ⟨3, "Carol".toList⟩ rfl

/-! The recommendation lookup: Newsletter.resolvePublicationId and
Newsletter.getRecommendations (newsletter.ts). -/

/-- JS String.toLowerCase (ASCII model). -/
def toLowerStr (s : List Char) : List Char := s.map Char.toLower

/-- hostFromUrl (newsletter.ts 23-27): prepend https:// when no scheme
separator is present, parse, and return the lowercased host.  The JS URL
constructor can throw on garbage input; the model is total and yields the
empty host there. -/
def hostFromUrl (url : List Char) : List Char :=
  let fullUrl := if (breakOnSub (':' :: '/' :: '/' :: []) url).isSome then url
                 else "https://".toList ++ url
  match parseURL fullUrl with
  | some u => toLowerStr u.host
  | none => []

/-- Publication info (types.ts PublicationInfo), restricted to the fields the
verified operations inspect; `custom_domain` is optional in the source. -/
structure PublicationInfo where
  id : Nat
  subdomain : List Char
  custom_domain : Option (List Char)
deriving DecidableEq, Repr

/-- Discovery search response (types.ts PublicationSearchResponse); the
`publications` field may be absent (the source guards with `|| []`). -/
structure PublicationSearchResponse where
  publications : Option (List PublicationInfo)
deriving DecidableEq, Repr

/-- JS truthiness of an optional string: present and non-empty. -/
def strTruthy : Option (List Char) → Bool
  | none => false
  | some s => !s.isEmpty

/-- JS truthiness of an optional number: present and non-zero (used for
`if (!publicationId)` in getRecommendations). -/
def idTruthy : Option Nat → Bool
  | none => false
  | some n => n != 0

/-- The capture of the fallback regex ^([a-z0-9-]+)\.substack\.com$ in
matchPublication: the subdomain token when the whole host matches. -/
def subdomainToken (host : List Char) : Option (List Char) :=
  let suffix := ".substack.com".toList
  if List.isSuffixOf suffix host then
    let sub := host.take (host.length - suffix.length)
    if !sub.isEmpty && sub.all (fun c =>
        (decide ('a' ≤ c) && decide (c ≤ 'z')) ||
        (decide ('0' ≤ c) && decide (c ≤ '9')) || c == '-') then
      some sub
    else none
  else none

/-- matchPublication (newsletter.ts 31-59): first publication whose truthy
custom domain's host equals the host, or whose non-empty lowercased subdomain
plus ".substack.com" equals the host; otherwise, when the host is itself a
subdomain of substack.com, the first publication whose lowercased subdomain
equals that token. -/
def matchPublication (searchResults : PublicationSearchResponse) (host : List Char) :
    Option PublicationInfo :=
  let publications := searchResults.publications.getD []
  match publications.find? (fun item =>
      (strTruthy item.custom_domain &&
        hostFromUrl (item.custom_domain.getD []) == host) ||
      (!item.subdomain.isEmpty &&
        (toLowerStr item.subdomain ++ ".substack.com".toList) == host)) with
  | some item => some item
  | none =>
    match subdomainToken host with
    | none => none
    | some sub => publications.find? (fun item => toLowerStr item.subdomain == sub)

/-- Newsletter.resolvePublicationId (newsletter.ts 224-260) over the discovery
search response for this newsletter's host: a non-2xx response or a thrown
fetch (both folded into the err case by the source's catch) yields null, as
does a missing match; otherwise the matched publication's id. -/
def resolvePublicationId (searchResp : HttpResult PublicationSearchResponse)
    (url : List Char) : Option Nat :=
  let host := hostFromUrl url
  match searchResp with
  | .err _ _ => none
  | .ok data =>
    match matchPublication data host with
    | some m => some m.id
    | none => none

/-- Recommendation entry (types.ts RecommendationData); the source reads
`rec.recommendedPublication` behind optional chaining, so the field is
modelled as possibly null. -/
structure RecommendationData where
  recommendedPublication : Option PublicationInfo
deriving DecidableEq, Repr

/-- The url-collecting loop of getRecommendations (newsletter.ts 290-299):
prefer a truthy custom domain, else a non-empty subdomain plus
".substack.com", else skip the entry. -/
def buildRecUrls : List RecommendationData → List (List Char)
  | [] => []
  | r :: rest =>
    let tailUrls := buildRecUrls rest
    match r.recommendedPublication with
    | none => tailUrls
    | some pub =>
      if strTruthy pub.custom_domain then pub.custom_domain.getD [] :: tailUrls
      else if !pub.subdomain.isEmpty then
        (pub.subdomain ++ ".substack.com".toList) :: tailUrls
      else tailUrls

/-- The network world of a getRecommendations call: the newsletter url, the
discovery search response, the archive server of the getPosts("new", 1)
fallback, the post-endpoint responses for getPublicationId, and the
recommendations endpoint responses keyed by publication id (whose payload may
be null: the source guards with `recommendations || []`). -/
structure RecWorld where
  url : List Char
  searchResp : HttpResult PublicationSearchResponse
  archive : Nat → HttpResult (List PostMetadata)
  postResp : List Char → HttpResult PostMetadata
  recResp : Nat → HttpResult (Option (List RecommendationData))

/-- Newsletter.getRecommendations (newsletter.ts 266-305).  `fuel` bounds the
inner pagination loop of the getPosts("new", 1) fallback; the call returns
none only on fuel exhaustion.  Mirrors the source: resolve the publication id
via discovery search; on a falsy id, try deriving it from the first fetched
post's publication id, absorbing every failure of that path (a thrown
pagination error, an unparseable post URL, a failed post fetch) as null via
the catch; a still-falsy id returns the empty list; a non-2xx recommendations
response returns the empty list; otherwise collect each recommendation's
domain.  This function is the id-resolution block (newsletter.ts 267-279). -/
def getRecommendationsId (w : RecWorld) (fuel : Nat) : Option (Option Nat) :=
  let p0 := resolvePublicationId w.searchResp w.url
  if idTruthy p0 then some p0
  else
    match fetchPaginatedPosts w.archive (some 1) DEFAULT_PAGE_SIZE fuel 0 [] with
    | none => none
    | some (.error _, _) => some none
    | some (.ok posts, _) =>
      match posts.head? with
      | none => some p0
      | some item =>
        match Post.ofUrl item.canonical_url with
        | none => some none
        | some post =>
          match w.postResp post.endpoint with
          | .err _ _ => some none
          | .ok pd => some (some pd.publication_id)

/-- The remainder of Newsletter.getRecommendations (newsletter.ts 281-304)
after the id resolution: a falsy id returns the empty list, a non-2xx
recommendations response returns the empty list, otherwise the collected
domains. -/
def getRecommendations (w : RecWorld) (fuel : Nat) :
    Option (Except FetchError (List (List Char))) :=
  match getRecommendationsId w fuel with
  | none => none
  | some publicationId =>
    if !idTruthy publicationId then some (.ok [])
    else
      match w.recResp (publicationId.getD 0) with
      | .err _ _ => some (.ok [])
      | .ok recommendations => some (.ok (buildRecUrls (recommendations.getD [])))

/-- Claim C8: getRecommendations never propagates an error: whenever the call
completes, its result is a plain list (never an exception).  When the
discovery search does not resolve a truthy publication id, the id is derived
from the first fetched post's publication id and that derived id is the one
the recommendations endpoint is consulted with; when both resolutions fail
(the resolved id is falsy, in particular when the fallback pagination throws
or the archive is empty while discovery already failed), and when the
recommendations endpoint answers non-2xx for whichever id was resolved, the
result is the empty list. -/
theorem claim_C8 (w : RecWorld) (fuel : Nat) (r : Except FetchError (List (List Char)))
    (h : getRecommendations w fuel = some r) :
    (∃ urls, r = .ok urls)
    ∧ (∀ posts tr item post pd,
        idTruthy (resolvePublicationId w.searchResp w.url) = false →
        fetchPaginatedPosts w.archive (some 1) DEFAULT_PAGE_SIZE fuel 0 []
          = some (.ok posts, tr) →
        posts.head? = some item →
        Post.ofUrl item.canonical_url = some post →
        w.postResp post.endpoint = .ok pd →
        pd.publication_id ≠ 0 →
        r = (match w.recResp pd.publication_id with
             | .err _ _ => Except.ok []
             | .ok recs => Except.ok (buildRecUrls (recs.getD []))))
    ∧ (∀ pid, getRecommendationsId w fuel = some pid → idTruthy pid = false →
        r = .ok [])
    ∧ (∀ e tr, idTruthy (resolvePublicationId w.searchResp w.url) = false →
        fetchPaginatedPosts w.archive (some 1) DEFAULT_PAGE_SIZE fuel 0 []
          = some (.error e, tr) →
        r = .ok [])
    ∧ (∀ tr, idTruthy (resolvePublicationId w.searchResp w.url) = false →
        fetchPaginatedPosts w.archive (some 1) DEFAULT_PAGE_SIZE fuel 0 []
          = some (.ok [], tr) →
        r = .ok [])
    ∧ (∀ pid s t, getRecommendationsId w fuel = some pid → idTruthy pid = true →
        w.recResp (pid.getD 0) = .err s t → r = .ok []) := by
  have hA : ∀ pid, getRecommendationsId w fuel = some pid → idTruthy pid = false →
      r = Except.ok [] := by
    intro pid hid hfalsy
    unfold getRecommendations at h
    rw [hid] at h
    dsimp only at h
    rw [if_pos (by simp [hfalsy])] at h
    injection h with h1
    exact h1.symm
  have hB : ∀ pid, getRecommendationsId w fuel = some pid → idTruthy pid = true →
      r = (match w.recResp (pid.getD 0) with
           | .err _ _ => Except.ok []
           | .ok recs => Except.ok (buildRecUrls (recs.getD []))) := by
    intro pid hid htr
    unfold getRecommendations at h
    rw [hid] at h
    dsimp only at h
    rw [if_neg (by simp [htr])] at h
    cases hrr : w.recResp (pid.getD 0) with
    | err s t =>
      rw [hrr] at h
      dsimp only at h ⊢
      injection h with h1
      exact h1.symm
    | ok recs =>
      rw [hrr] at h
      dsimp only at h ⊢
      injection h with h1
      exact h1.symm
  refine ⟨?_, ?_, hA, ?_, ?_, ?_⟩
  · cases hid : getRecommendationsId w fuel with
    | none =>
      unfold getRecommendations at h
      rw [hid] at h
      cases h
    | some pid =>
      by_cases htr : idTruthy pid = true
      · rw [hB pid hid htr]
        cases w.recResp (pid.getD 0) with
        | err s t => exact ⟨[], rfl⟩
        | ok recs => exact ⟨buildRecUrls (recs.getD []), rfl⟩
      · rw [hA pid hid (by simpa using htr)]
        exact ⟨[], rfl⟩
  · intro posts tr item post pd hp0 hfetch hhead hparse hpost hpd
    have hid : getRecommendationsId w fuel = some (some pd.publication_id) := by
      unfold getRecommendationsId
      rw [if_neg (by simp [hp0]), hfetch]
      dsimp only
      rw [hhead]
      dsimp only
      rw [hparse]
      dsimp only
      rw [hpost]
    have htr : idTruthy (some pd.publication_id) = true := by
      unfold idTruthy
      simpa using hpd
    exact hB _ hid htr
  · intro e tr hp0 hfetch
    have hid : getRecommendationsId w fuel = some none := by
      unfold getRecommendationsId
      rw [if_neg (by simp [hp0]), hfetch]
    exact hA none hid rfl
  · intro tr hp0 hfetch
    have hid : getRecommendationsId w fuel
        = some (resolvePublicationId w.searchResp w.url) := by
      unfold getRecommendationsId
      rw [if_neg (by simp [hp0]), hfetch]
      rfl
    exact hA _ hid hp0
  · intro pid s t hid htr herr
    have hres := hB pid hid htr
    rw [herr] at hres
    dsimp only at hres
    exact hres

/-- World for the C8 witness, exercising the fallback path: the discovery
search fails, the archive returns one post, that post's endpoint reports
publication id 42, and the recommendations endpoint for id 42 answers one
entry carrying a subdomain. -/
def recWorldFB : RecWorld :=
  { url := "https://example.substack.com".toList
    searchResp := .err 500 "Internal Server Error"
    archive := fun _ => .ok [⟨1, 7, "https://example.substack.com/p/hello".toList⟩]
    postResp := fun _ => .ok ⟨1, 42, "https://example.substack.com/p/hello".toList⟩
    recResp := fun pid =>
      if pid = 42 then .ok (some [⟨some ⟨99, "fb".toList, none⟩⟩])
      else .err 404 "Not Found" }

/-- The parsed first post of the C8 witness world. -/
def recPostFB : PostCtor :=
  { url := "https://example.substack.com/p/hello".toList
    baseUrl := "https://example.substack.com".toList
    slug := some "hello".toList
    endpoint := "https://example.substack.com/api/v1/posts/hello".toList }

/-- Witness for claim C8 at a concrete world exercising the fallback: the
discovery search fails, id 42 is derived from the first fetched post, the
completed call is a plain url list, and it equals exactly what the
recommendations endpoint for the derived id 42 dictates. -/
theorem claim_C8_witness :
    (∃ urls, (Except.ok ["fb.substack.com".toList] :
        Except FetchError (List (List Char))) = .ok urls)
    ∧ (Except.ok ["fb.substack.com".toList] :
        Except FetchError (List (List Char)))
      = (match recWorldFB.recResp 42 with
         | .err _ _ => Except.ok []
         | .ok recs => Except.ok (buildRecUrls (recs.getD []))) := by
  constructor
  · exact (claim_C8 recWorldFB 5 (.ok ["fb.substack.com".toList]) (by decide)).1
  · exact (claim_C8 recWorldFB 5 (.ok ["fb.substack.com".toList]) (by decide)).2.1
      [⟨1, 7, "https://example.substack.com/p/hello".toList⟩] [0]
      ⟨1, 7, "https://example.substack.com/p/hello".toList⟩ recPostFB
      ⟨1, 42, "https://example.substack.com/p/hello".toList⟩
      (by decide) (by decide) (by decide) (by decide) (by decide) (by decide)

/-! HTML normalization: stripHtml (post.ts 8-65).  Each regex replacement of
the source is transcribed as a left-to-right scanner with the regex's
first-match / resume-after-match semantics; scanners whose advancement is not
structural carry a fuel argument initialized to the input length (every step
consumes at least one character, so the fuel never runs out when so
initialized). -/

/-- The JS regex \s class (which coincides with the character set removed by
String.trim): WhiteSpace plus LineTerminator. -/
def isJsSpace (c : Char) : Bool :=
  c == ' ' || c == '\t' || c == '\n' || c == '\r' ||
  c == '\x0b' || c == '\x0c' || c == ' ' || c == ' ' ||
  (decide (' ' ≤ c) && decide (c ≤ ' ')) ||
  c == ' ' || c == ' ' || c == ' ' || c == ' ' ||
  c == '　' || c == '﻿'

/-- Case-insensitive prefix match (ASCII folding of the regex i flag). -/
def matchesCI : List Char → List Char → Bool
  | [], _ => true
  | _ :: _, [] => false
  | p :: ps, c :: cs => (p.toLower == c.toLower) && matchesCI ps cs

/-- Split at the first case-insensitive occurrence of the pattern, returning
the part before it and the part after it. -/
def findCISub (pat : List Char) : List Char → Option (List Char × List Char)
  | [] => none
  | c :: rest =>
    if matchesCI pat (c :: rest) then some ([], (c :: rest).drop pat.length)
    else
      match findCISub pat rest with
      | some (a, b) => some (c :: a, b)
      | none => none

/-- One attempted match of <TAG[^>]*>[\s\S]*?</TAG> (case-insensitive) at the
head of the input: the attributes run greedily to the first ">", the lazy
body to the first closing tag; returns the remainder after the closing tag,
or none when the attempt fails. -/
def tagBlockAt (tag : List Char) (l : List Char) : Option (List Char) :=
  if matchesCI ('<' :: tag) l then
    let afterOpen := l.drop (tag.length + 1)
    let attrs := afterOpen.takeWhile (fun c => c != '>')
    match afterOpen.drop attrs.length with
    | '>' :: body =>
      match findCISub ('<' :: '/' :: tag ++ ['>']) body with
      | some (_, after) => some after
      | none => none
    | _ => none
  else none

def removeTagBlocksAux (tag : List Char) : Nat → List Char → List Char
  | 0, l => l
  | _ + 1, [] => []
  | fuel + 1, c :: rest =>
    match tagBlockAt tag (c :: rest) with
    | some after => removeTagBlocksAux tag fuel after
    | none => c :: removeTagBlocksAux tag fuel rest

/-- text.replace(/<TAG[^>]*>[\s\S]*?<\/TAG>/gi, "") for TAG = script, style
(post.ts 10-11). -/
def removeTagBlocks (tag : List Char) (l : List Char) : List Char :=
  removeTagBlocksAux tag l.length l

/-- First candidate matching case-insensitively at the head of the input. -/
def findMatchAt (cands : List (List Char)) (l : List Char) : Option (List Char) :=
  match cands with
  | [] => none
  | p :: ps => if matchesCI p l then some p else findMatchAt ps l

def replaceTagsAux (cands : List (List Char)) (repl : List Char) :
    Nat → List Char → List Char
  | 0, l => l
  | _ + 1, [] => []
  | fuel + 1, c :: rest =>
    match findMatchAt cands (c :: rest) with
    | some p => repl ++ replaceTagsAux cands repl fuel ((c :: rest).drop p.length)
    | none => c :: replaceTagsAux cands repl fuel rest

/-- Global replacement of a finite alternation of literal tags (the
alternatives of the source's closing-block-tag and ul/ol regexes never
overlap at a position, so candidate order is immaterial). -/
def replaceTagsCI (cands : List (List Char)) (repl : List Char) (l : List Char) :
    List Char :=
  replaceTagsAux cands repl l.length l

/-- The alternatives of /<\/(p|div|h[1-6]|li|tr|blockquote)>/gi. -/
def blockCloseTags : List (List Char) :=
  ["</p>", "</div>", "</h1>", "</h2>", "</h3>", "</h4>", "</h5>", "</h6>",
   "</li>", "</tr>", "</blockquote>"].map String.toList

/-- The alternatives of /<\/?(ul|ol)>/gi. -/
def ulOlTags : List (List Char) :=
  ["<ul>", "</ul>", "<ol>", "</ol>"].map String.toList

/-- One attempted match of /<br\s*\/?>/i at the head of the input, returning
the remainder after it. -/
def brMatchAt (l : List Char) : Option (List Char) :=
  if matchesCI ('<' :: 'b' :: 'r' :: []) l then
    let rest1 := l.drop 3
    let rest2 := rest1.drop (rest1.takeWhile isJsSpace).length
    match rest2 with
    | '>' :: tail2 => some tail2
    | '/' :: '>' :: tail2 => some tail2
    | _ => none
  else none

def replaceBrAux : Nat → List Char → List Char
  | 0, l => l
  | _ + 1, [] => []
  | fuel + 1, c :: rest =>
    match brMatchAt (c :: rest) with
    | some after => '\n' :: replaceBrAux fuel after
    | none => c :: replaceBrAux fuel rest

/-- text.replace(/<br\s*\/?>/gi, "\n") (post.ts 15). -/
def replaceBr (l : List Char) : List Char :=
  replaceBrAux l.length l

def stripAllTagsAux : Nat → List Char → List Char
  | 0, l => l
  | _ + 1, [] => []
  | fuel + 1, c :: rest =>
    if c = '<' then
      let inner := rest.takeWhile (fun d => d != '>')
      match rest.drop inner.length with
      | '>' :: tail2 =>
        if inner.isEmpty then c :: stripAllTagsAux fuel rest
        else stripAllTagsAux fuel tail2
      | _ => c :: stripAllTagsAux fuel rest
    else c :: stripAllTagsAux fuel rest

/-- text.replace(/<[^>]+>/g, "") (post.ts 19): a match needs at least one
non-">" character between "<" and ">", so "<>" is left alone. -/
def stripAllTags (l : List Char) : List Char :=
  stripAllTagsAux l.length l

def replaceAllAux (pat repl : List Char) : Nat → List Char → List Char
  | 0, l => l
  | _ + 1, [] => []
  | fuel + 1, c :: rest =>
    if List.isPrefixOf pat (c :: rest) then
      repl ++ replaceAllAux pat repl fuel ((c :: rest).drop pat.length)
    else c :: replaceAllAux pat repl fuel rest

/-- JS String.replaceAll with a literal non-empty pattern: non-overlapping
leftmost occurrences. -/
def replaceAllStr (pat repl : List Char) (l : List Char) : List Char :=
  replaceAllAux pat repl l.length l

/-- The named entity table of stripHtml (post.ts 22-41) in insertion order. -/
def entities : List (List Char × List Char) :=
  [("&nbsp;", " "), ("&amp;", "&"), ("&lt;", "<"), ("&gt;", ">"),
   ("&quot;", "\""), ("&#39;", "'"), ("&apos;", "'"), ("&mdash;", "—"),
   ("&ndash;", "–"), ("&hellip;", "…"), ("&bull;", "•"), ("&copy;", "©"),
   ("&reg;", "®"), ("&trade;", "™"), ("&euro;", "€"), ("&pound;", "£"),
   ("&yen;", "¥"), ("&cent;", "¢")].map (fun p => (p.1.toList, p.2.toList))

/-- The sequential replaceAll loop over the entity table (post.ts 43-45). -/
def decodeEntities (l : List Char) : List Char :=
  entities.foldl (fun acc p => replaceAllStr p.1 p.2 acc) l

def isDigit (c : Char) : Bool := decide ('0' ≤ c) && decide (c ≤ '9')

def isHexDigit (c : Char) : Bool :=
  isDigit c || (decide ('a' ≤ c) && decide (c ≤ 'f')) ||
  (decide ('A' ≤ c) && decide (c ≤ 'F'))

def digitsToNat (ds : List Char) : Nat :=
  ds.foldl (fun acc c => acc * 10 + (c.toNat - '0'.toNat)) 0

def hexDigitVal (c : Char) : Nat :=
  if isDigit c then c.toNat - '0'.toNat
  else if decide ('a' ≤ c) && decide (c ≤ 'f') then c.toNat - 'a'.toNat + 10
  else c.toNat - 'A'.toNat + 10

def hexToNat (ds : List Char) : Nat :=
  ds.foldl (fun acc c => acc * 16 + hexDigitVal c) 0

/-- String.fromCharCode: the value is reduced modulo 2^16 to a UTF-16 code
unit; code units in the surrogate range are not Lean scalar values and
degrade to Char.ofNat's default. -/
def fromCharCode (n : Nat) : Char := Char.ofNat (n % 65536)

def decodeDecAux : Nat → List Char → List Char
  | 0, l => l
  | _ + 1, [] => []
  | fuel + 1, c :: rest =>
    if c = '&' then
      match rest with
      | '#' :: rest2 =>
        let ds := rest2.takeWhile isDigit
        if ds.isEmpty then c :: decodeDecAux fuel rest
        else
          match rest2.drop ds.length with
          | ';' :: tail2 => fromCharCode (digitsToNat ds) :: decodeDecAux fuel tail2
          | _ => c :: decodeDecAux fuel rest
      | _ => c :: decodeDecAux fuel rest
    else c :: decodeDecAux fuel rest

/-- text.replace(/&#(\d+);/g, ...) (post.ts 48). -/
def decodeDec (l : List Char) : List Char :=
  decodeDecAux l.length l

def decodeHexAux : Nat → List Char → List Char
  | 0, l => l
  | _ + 1, [] => []
  | fuel + 1, c :: rest =>
    if c = '&' then
      match rest with
      | '#' :: 'x' :: rest2 =>
        let ds := rest2.takeWhile isHexDigit
        if ds.isEmpty then c :: decodeHexAux fuel rest
        else
          match rest2.drop ds.length with
          | ';' :: tail2 => fromCharCode (hexToNat ds) :: decodeHexAux fuel tail2
          | _ => c :: decodeHexAux fuel rest
      | _ => c :: decodeHexAux fuel rest
    else c :: decodeHexAux fuel rest

/-- text.replace(/&#x([0-9a-fA-F]+);/g, ...) (post.ts 49-51); the "x" is
matched case-sensitively (the regex has no i flag). -/
def decodeHex (l : List Char) : List Char :=
  decodeHexAux l.length l

def csAux : Bool → List Char → List Char
  | _, [] => []
  | inRun, c :: rest =>
    if c = ' ' || c = '\t' then
      (if inRun then csAux true rest else ' ' :: csAux true rest)
    else c :: csAux false rest

/-- text.replace(/[ \t]+/g, " ") (post.ts 54): each maximal run of spaces and
tabs becomes a single space. -/
def collapseSpaces (l : List Char) : List Char := csAux false l

/-- Split a string as pre ++ "\n" ++ suf with no "\n" in suf (the last
newline), when one exists. -/
def splitLastNl : List Char → Option (List Char × List Char)
  | [] => none
  | c :: rest =>
    match splitLastNl rest with
    | some (p, suf) => some (c :: p, suf)
    | none => if c = '\n' then some ([], rest) else none

def cbAux : Nat → List Char → List Char
  | 0, l => l
  | _ + 1, [] => []
  | fuel + 1, c :: rest =>
    if c = '\n' then
      match splitLastNl (rest.takeWhile isJsSpace) with
      | some (_, suf) => '\n' :: '\n' :: cbAux fuel (suf ++ rest.dropWhile isJsSpace)
      | none => '\n' :: cbAux fuel rest
    else c :: cbAux fuel rest

/-- text.replace(/\n\s*\n/g, "\n\n") (post.ts 55).  At a newline the greedy
\s* backtracks to the last newline of the maximal whitespace run, the match
is replaced by two newlines, and scanning resumes after the match. -/
def collapseBlank (l : List Char) : List Char := cbAux l.length l

def trimEnd (l : List Char) : List Char := (l.reverse.dropWhile isJsSpace).reverse

/-- JS String.trim (leading and trailing WhiteSpace/LineTerminator). -/
def trimL (l : List Char) : List Char := trimEnd (l.dropWhile isJsSpace)

def splitNl (l : List Char) : List (List Char) := splitOnChar '\n' l

def joinNl : List (List Char) → List Char
  | [] => []
  | [x] => x
  | x :: xs => x ++ '\n' :: joinNl xs

/-- The final stage of stripHtml (post.ts 58-63): split on newlines, trim
every line, join, trim the whole. -/
def lineStage (l : List Char) : List Char :=
  trimL (joinNl ((splitNl l).map trimL))

/-- The whitespace-normalization tail of stripHtml (post.ts 53-63). -/
def wsNormalize (l : List Char) : List Char :=
  lineStage (collapseBlank (collapseSpaces l))

/-- stripHtml (post.ts 8-65), the exact source pipeline: remove script and
style blocks with their content; turn closing block tags, br and ul/ol tags
into newlines; strip the remaining tags; decode the named entity table, then
decimal and hex character references; collapse space/tab runs; collapse blank
lines; trim every line and the whole text. -/
def stripHtml (html : List Char) : List Char :=
  let text1 := removeTagBlocks "script".toList html
  let text2 := removeTagBlocks "style".toList text1
  let text3 := replaceTagsCI blockCloseTags ['\n'] text2
  let text4 := replaceBr text3
  let text5 := replaceTagsCI ulOlTags ['\n'] text4
  let text6 := stripAllTags text5
  let text7 := decodeEntities text6
  let text8 := decodeDec text7
  let text9 := decodeHex text8
  wsNormalize text9

/-! Lemmas towards the conditional idempotence of stripHtml (claim C6).
First: basic properties of the blank-line collapser. -/

theorem splitLastNl_none (l : List Char) (h : splitLastNl l = none) : '\n' ∉ l := by
  induction l with
  | nil => simp
  | cons c rest ih =>
    simp only [splitLastNl] at h
    cases hr : splitLastNl rest with
    | some q => rw [hr] at h; cases h
    | none =>
      rw [hr] at h
      by_cases hc : c = '\n'
      · rw [if_pos hc] at h; cases h
      · intro hmem
        rcases List.mem_cons.mp hmem with hcase | hcase
        · exact hc hcase.symm
        · exact ih hr hcase

theorem splitLastNl_spec : ∀ (l p suf : List Char), splitLastNl l = some (p, suf) →
    l = p ++ '\n' :: suf ∧ '\n' ∉ suf := by
  intro l
  induction l with
  | nil => intro p suf h; simp [splitLastNl] at h
  | cons c rest ih =>
    intro p suf h
    simp only [splitLastNl] at h
    cases hr : splitLastNl rest with
    | some q =>
      rw [hr] at h
      obtain ⟨q1, q2⟩ := q
      simp only [Option.some.injEq, Prod.mk.injEq] at h
      obtain ⟨hp, hsuf⟩ := h
      obtain ⟨he, hn⟩ := ih q1 q2 hr
      rw [← hp, ← hsuf]
      exact ⟨by rw [List.cons_append, ← he], hn⟩
    | none =>
      rw [hr] at h
      by_cases hc : c = '\n'
      · rw [if_pos hc] at h
        simp only [Option.some.injEq, Prod.mk.injEq] at h
        obtain ⟨hp, hsuf⟩ := h
        rw [← hp, ← hsuf, hc]
        exact ⟨by simp, splitLastNl_none rest hr⟩
      · rw [if_neg hc] at h
        cases h

theorem splitLastNl_of_not_mem (l : List Char) (h : '\n' ∉ l) : splitLastNl l = none := by
  cases hr : splitLastNl l with
  | none => rfl
  | some q =>
    obtain ⟨he, _⟩ := splitLastNl_spec l q.1 q.2 (by rw [hr])
    exact absurd (by rw [he]; simp) h

/-- The collapser keeps the first character of the input. -/
theorem cbAux_head? : ∀ (f : Nat) (l : List Char), (cbAux f l).head? = l.head? := by
  intro f l
  cases f with
  | zero => rfl
  | succ n =>
    cases l with
    | nil => rfl
    | cons c rest =>
      simp only [cbAux]
      by_cases hc : c = '\n'
      · rw [if_pos hc]
        cases hs : splitLastNl (rest.takeWhile isJsSpace) with
        | some q => simp [hc]
        | none => simp [hc]
      · rw [if_neg hc]
        simp

/-- A newline-free string passes through the collapser unchanged. -/
theorem cbAux_of_not_mem : ∀ (f : Nat) (l : List Char), '\n' ∉ l → cbAux f l = l := by
  intro f
  induction f with
  | zero => intro l _; rfl
  | succ n ih =>
    intro l h
    cases l with
    | nil => rfl
    | cons c rest =>
      simp only [cbAux]
      have hc : ¬ c = '\n' := fun hcon => h (by rw [hcon]; simp)
      rw [if_neg hc]
      rw [ih rest (fun hmem => h (List.mem_cons_of_mem c hmem))]

/-- The collapser copies a newline-free prefix. -/
theorem cbAux_append_of_not_mem :
    ∀ (s : List Char), '\n' ∉ s → ∀ (f : Nat) (t : List Char), s.length ≤ f →
    cbAux f (s ++ t) = s ++ cbAux (f - s.length) t := by
  intro s
  induction s with
  | nil => intro _ f t _; simp
  | cons c s' ih =>
    intro h f t hf
    have hc : ¬ c = '\n' := fun hcon => h (by rw [hcon]; simp)
    cases f with
    | zero => simp at hf
    | succ m =>
      show cbAux (m + 1) (c :: (s' ++ t)) = _
      simp only [cbAux, if_neg hc]
      rw [ih (fun hmem => h (List.mem_cons_of_mem c hmem)) m t (by simpa using hf)]
      have harith : m + 1 - (c :: s').length = m - s'.length := by
        simp only [List.length_cons]
        omega
      rw [harith]
      simp

/-- The collapser's value does not depend on the fuel once the fuel covers
the input length. -/
theorem cbAux_fuel : ∀ (l : List Char) (f : Nat), l.length ≤ f →
    cbAux f l = collapseBlank l := by
  have main : ∀ (k : Nat) (l : List Char) (f : Nat), l.length ≤ k → l.length ≤ f →
      cbAux f l = cbAux l.length l := by
    intro k
    induction k with
    | zero =>
      intro l f hk _
      have : l = [] := List.eq_nil_of_length_eq_zero (by omega)
      subst this
      cases f <;> rfl
    | succ m ihm =>
      intro l f hk hf
      cases l with
      | nil => cases f <;> rfl
      | cons c rest =>
        have hk' : rest.length + 1 ≤ m + 1 := by simpa using hk
        cases f with
        | zero => simp at hf
        | succ n =>
          have hf' : rest.length + 1 ≤ n + 1 := by simpa using hf
          simp only [cbAux, List.length_cons, Nat.add_sub_cancel]
          by_cases hc : c = '\n'
          · rw [if_pos hc, if_pos hc]
            cases hs : splitLastNl (rest.takeWhile isJsSpace) with
            | some q =>
              obtain ⟨q1, q2⟩ := q
              dsimp only
              obtain ⟨he, _⟩ := splitLastNl_spec _ _ _ hs
              have hlen : (q2 ++ rest.dropWhile isJsSpace).length ≤ rest.length := by
                have h1 : rest.takeWhile isJsSpace ++ rest.dropWhile isJsSpace = rest :=
                  List.takeWhile_append_dropWhile isJsSpace rest
                have h2 : (rest.takeWhile isJsSpace).length +
                    (rest.dropWhile isJsSpace).length = rest.length := by
                  rw [← List.length_append, h1]
                have h3 : (rest.takeWhile isJsSpace).length = q1.length + 1 + q2.length := by
                  rw [he]
                  simp
                  omega
                simp only [List.length_append]
                omega
              rw [ihm (q2 ++ rest.dropWhile isJsSpace) n (by omega) (by omega),
                ihm (q2 ++ rest.dropWhile isJsSpace) rest.length (by omega) (by omega)]
            | none =>
              dsimp only
              rw [ihm rest n (by omega) (by omega), ihm rest rest.length (by omega) (by omega)]
          · rw [if_neg hc, if_neg hc]
            rw [ihm rest n (by omega) (by omega), ihm rest rest.length (by omega) (by omega)]
  intro l f hf
  unfold collapseBlank
  exact main l.length l f (Nat.le_refl _) hf

/-- Prefix-copy law at the wrapper level. -/
theorem collapseBlank_append_of_not_mem (s t : List Char) (h : '\n' ∉ s) :
    collapseBlank (s ++ t) = s ++ collapseBlank t := by
  unfold collapseBlank
  rw [cbAux_append_of_not_mem s h (s ++ t).length t (by simp)]
  congr 1
  rw [cbAux_fuel t ((s ++ t).length - s.length) (by simp)]
  rfl

/-! The space/tab collapser: its outputs have no tab and no adjacent spaces,
and such strings are its fixpoints. -/

/-- No two adjacent space characters. -/
def noDblB : List Char → Bool
  | [] => true
  | [_] => true
  | c1 :: c2 :: rest => !(c1 == ' ' && c2 == ' ') && noDblB (c2 :: rest)

theorem noDblB_cons (c : Char) (l : List Char) :
    noDblB (c :: l) = true ↔
      (noDblB l = true ∧ ¬(c = ' ' ∧ l.head? = some ' ')) := by
  cases l with
  | nil => simp [noDblB]
  | cons d rest =>
    simp only [noDblB, Bool.and_eq_true, Bool.not_eq_true']
    constructor
    · intro ⟨h1, h2⟩
      refine ⟨h2, ?_⟩
      intro ⟨hc, hd⟩
      simp only [List.head?_cons, Option.some.injEq] at hd
      rw [hc, hd] at h1
      simp at h1
    · intro ⟨h1, h2⟩
      refine ⟨?_, h1⟩
      by_cases hc : c = ' '
      · by_cases hd : d = ' '
        · exact absurd ⟨hc, by rw [hd]; rfl⟩ h2
        · simp [hd]
      · simp [hc]

theorem noDblB_suffix : ∀ (a b : List Char), noDblB (a ++ b) = true → noDblB b = true := by
  intro a
  induction a with
  | nil => intro b h; simpa using h
  | cons c a' ih =>
    intro b h
    rw [List.cons_append, noDblB_cons] at h
    exact ih b h.1

theorem noDblB_prefix : ∀ (a b : List Char), noDblB (a ++ b) = true → noDblB a = true := by
  intro a
  induction a with
  | nil => intro b h; rfl
  | cons c a' ih =>
    intro b h
    rw [List.cons_append, noDblB_cons] at h
    rw [noDblB_cons]
    refine ⟨ih b h.1, ?_⟩
    intro ⟨hc, hh⟩
    cases a' with
    | nil => simp at hh
    | cons d r => exact h.2 ⟨hc, by simpa using hh⟩

theorem noDblB_append (a : List Char) (c : Char) (b : List Char)
    (ha : noDblB a = true) (hb : noDblB (c :: b) = true) (hc : c ≠ ' ') :
    noDblB (a ++ c :: b) = true := by
  induction a with
  | nil => simpa using hb
  | cons x a' ih =>
    rw [noDblB_cons] at ha
    rw [List.cons_append, noDblB_cons]
    refine ⟨ih ha.1, ?_⟩
    intro ⟨hx, hh⟩
    cases a' with
    | nil =>
      simp only [List.nil_append, List.head?_cons, Option.some.injEq] at hh
      exact hc hh
    | cons d r => exact ha.2 ⟨hx, by simpa using hh⟩

theorem csAux_not_tab : ∀ (b : Bool) (l : List Char), '\t' ∉ csAux b l := by
  intro b l
  induction l generalizing b with
  | nil => simp [csAux]
  | cons c rest ih =>
    simp only [csAux]
    by_cases hc : (c = ' ' || c = '\t') = true
    · rw [if_pos hc]
      by_cases hb : b = true
      · rw [hb]
        simpa using ih true
      · rw [(by simpa using hb : b = false), if_neg (by simp)]
        intro hmem
        rcases List.mem_cons.mp hmem with hcase | hcase
        · cases hcase
        · exact ih true hcase
    · rw [if_neg hc]
      intro hmem
      rcases List.mem_cons.mp hmem with hcase | hcase
      · rw [hcase] at hc; simp at hc
      · exact ih false hcase

theorem csAux_true_head : ∀ (l : List Char), (csAux true l).head? ≠ some ' ' := by
  intro l
  induction l with
  | nil => simp [csAux]
  | cons c rest ih =>
    simp only [csAux]
    by_cases hc : (c = ' ' || c = '\t') = true
    · rw [if_pos hc]
      simpa using ih
    · rw [if_neg hc]
      simp only [List.head?_cons, Option.some.injEq, ne_eq]
      intro hcon
      rw [hcon] at hc
      simp at hc

theorem csAux_noDbl : ∀ (l : List Char) (b : Bool), noDblB (csAux b l) = true := by
  intro l
  induction l with
  | nil => intro b; rfl
  | cons c rest ih =>
    intro b
    simp only [csAux]
    by_cases hc : (c = ' ' || c = '\t') = true
    · rw [if_pos hc]
      by_cases hb : b = true
      · rw [hb]
        simpa using ih true
      · rw [(by simpa using hb : b = false), if_neg (by simp)]
        rw [noDblB_cons]
        exact ⟨ih true, fun hcon => csAux_true_head rest hcon.2⟩
    · rw [if_neg hc]
      rw [noDblB_cons]
      refine ⟨ih false, ?_⟩
      intro ⟨hsp, _⟩
      rw [hsp] at hc
      simp at hc

theorem csAux_true_eq_false (l : List Char) (h1 : l.head? ≠ some ' ')
    (h2 : l.head? ≠ some '\t') : csAux true l = csAux false l := by
  cases l with
  | nil => rfl
  | cons c rest =>
    simp only [List.head?_cons, ne_eq, Option.some.injEq] at h1 h2
    have hcond : ¬ ((c = ' ' || c = '\t') = true) := by simp [h1, h2]
    simp only [csAux, if_neg hcond]

theorem collapseSpaces_id (l : List Char) (htab : '\t' ∉ l)
    (hdbl : noDblB l = true) : collapseSpaces l = l := by
  unfold collapseSpaces
  induction l with
  | nil => rfl
  | cons c rest ih =>
    have hct : c ≠ '\t' := fun hcon => htab (by rw [hcon]; simp)
    have hrest_tab : '\t' ∉ rest := fun hmem => htab (List.mem_cons_of_mem c hmem)
    have hrest_dbl : noDblB rest = true := ((noDblB_cons c rest).mp hdbl).1
    simp only [csAux]
    by_cases hc : (c = ' ' || c = '\t') = true
    · have hcs : c = ' ' := by
        by_cases hsp : c = ' '
        · exact hsp
        · exact absurd (by simpa [hsp] using hc) hct
      rw [if_pos hc, if_neg (by simp)]
      have hh : rest.head? ≠ some ' ' := by
        intro hcon
        exact ((noDblB_cons c rest).mp hdbl).2 ⟨hcs, hcon⟩
      have hh2 : rest.head? ≠ some '\t' := by
        intro hcon
        cases rest with
        | nil => simp at hcon
        | cons d r =>
          simp only [List.head?_cons, Option.some.injEq] at hcon
          exact hrest_tab (by rw [hcon]; simp)
      rw [csAux_true_eq_false rest hh hh2, ih hrest_tab hrest_dbl, hcs]
    · rw [if_neg hc]
      rw [ih hrest_tab hrest_dbl]

/-! The blank-line collapser preserves the space/tab invariants: its output
characters come from the input or are newlines, and it creates no adjacent
spaces. -/

theorem mem_cbAux : ∀ (f : Nat) (l : List Char) (c : Char),
    c ∈ cbAux f l → c ∈ l ∨ c = '\n' := by
  intro f
  induction f with
  | zero => intro l c h; exact Or.inl h
  | succ m ih =>
    intro l c h
    cases l with
    | nil => exact Or.inl h
    | cons d rest =>
      simp only [cbAux] at h
      by_cases hd : d = '\n'
      · rw [if_pos hd] at h
        cases hs : splitLastNl (rest.takeWhile isJsSpace) with
        | some q =>
          obtain ⟨q1, q2⟩ := q
          rw [hs] at h
          dsimp only at h
          rcases List.mem_cons.mp h with h1 | h
          · exact Or.inr h1
          rcases List.mem_cons.mp h with h1 | h
          · exact Or.inr h1
          rcases ih _ c h with hm | hnl
          · rcases List.mem_append.mp hm with hq | hdrop
            · obtain ⟨he, _⟩ := splitLastNl_spec _ _ _ hs
              have htk : c ∈ rest.takeWhile isJsSpace := by
                rw [he]
                simp [hq]
              have hr : c ∈ rest := by
                rw [← List.takeWhile_append_dropWhile (p := isJsSpace) (l := rest)]
                exact List.mem_append.mpr (Or.inl htk)
              exact Or.inl (List.mem_cons_of_mem d hr)
            · have hr : c ∈ rest := by
                rw [← List.takeWhile_append_dropWhile (p := isJsSpace) (l := rest)]
                exact List.mem_append.mpr (Or.inr hdrop)
              exact Or.inl (List.mem_cons_of_mem d hr)
          · exact Or.inr hnl
        | none =>
          rw [hs] at h
          dsimp only at h
          rcases List.mem_cons.mp h with h1 | h
          · exact Or.inr h1
          rcases ih _ c h with hm | hnl
          · exact Or.inl (List.mem_cons_of_mem d hm)
          · exact Or.inr hnl
      · rw [if_neg hd] at h
        rcases List.mem_cons.mp h with h1 | h
        · exact Or.inl (by rw [h1]; simp)
        rcases ih _ c h with hm | hnl
        · exact Or.inl (List.mem_cons_of_mem d hm)
        · exact Or.inr hnl

theorem cbAux_noDbl : ∀ (f : Nat) (l : List Char),
    noDblB l = true → noDblB (cbAux f l) = true := by
  intro f
  induction f with
  | zero => intro l h; exact h
  | succ m ih =>
    intro l h
    cases l with
    | nil => rfl
    | cons d rest =>
      have hrest : noDblB rest = true := ((noDblB_cons d rest).mp h).1
      simp only [cbAux]
      by_cases hd : d = '\n'
      · rw [if_pos hd]
        cases hs : splitLastNl (rest.takeWhile isJsSpace) with
        | some q =>
          obtain ⟨q1, q2⟩ := q
          dsimp only
          rw [noDblB_cons]
          refine ⟨?_, fun hp => absurd hp.1 (by decide)⟩
          rw [noDblB_cons]
          refine ⟨?_, fun hp => absurd hp.1 (by decide)⟩
          apply ih
          obtain ⟨he, _⟩ := splitLastNl_spec _ _ _ hs
          have h0 := List.takeWhile_append_dropWhile (p := isJsSpace) (l := rest)
          rw [he] at h0
          have h1 : (q1 ++ ['\n']) ++ (q2 ++ rest.dropWhile isJsSpace) = rest := by
            conv_rhs => rw [← h0]
            simp
          exact noDblB_suffix _ _ (by rw [h1]; exact hrest)
        | none =>
          dsimp only
          rw [noDblB_cons]
          exact ⟨ih rest hrest, fun hp => absurd hp.1 (by decide)⟩
      · rw [if_neg hd]
        rw [noDblB_cons]
        refine ⟨ih rest hrest, ?_⟩
        intro hp
        have hh := hp.2
        rw [cbAux_head?] at hh
        exact ((noDblB_cons d rest).mp h).2 ⟨hp.1, hh⟩

/-! The exact failure configurations of the blank-line replacement: a newline,
a nonempty all-whitespace window, and another newline.  The collapser never
produces such a configuration, and is the identity in its absence. -/

/-- Somewhere in the string, a newline is followed by a nonempty
all-whitespace window and then another newline. -/
def BadRun (t : List Char) : Prop :=
  ∃ a w b, t = a ++ '\n' :: (w ++ '\n' :: b) ∧ w ≠ [] ∧ ∀ c ∈ w, isJsSpace c = true

theorem badRun_cons (c : Char) (t : List Char) (h : BadRun t) : BadRun (c :: t) := by
  obtain ⟨a, w, b, he, hw, hws⟩ := h
  exact ⟨c :: a, w, b, by rw [he]; rfl, hw, hws⟩

theorem badRun_cases (c : Char) (t : List Char) (h : BadRun (c :: t)) :
    (c = '\n' ∧ ∃ w b, t = w ++ '\n' :: b ∧ w ≠ [] ∧ ∀ d ∈ w, isJsSpace d = true) ∨
      BadRun t := by
  obtain ⟨a, w, b, he, hw, hws⟩ := h
  cases a with
  | nil =>
    simp only [List.nil_append] at he
    injection he with h1 h2
    exact Or.inl ⟨h1, w, b, h2, hw, hws⟩
  | cons d a' =>
    rw [List.cons_append] at he
    injection he with h1 h2
    exact Or.inr ⟨a', w, b, h2, hw, hws⟩

theorem takeWhile_append_all {p : Char → Bool} (s t : List Char)
    (hs : ∀ c ∈ s, p c = true) :
    (s ++ t).takeWhile p = s ++ t.takeWhile p := by
  induction s with
  | nil => simp
  | cons c s' ih =>
    rw [List.cons_append, List.takeWhile_cons_of_pos (hs c (by simp)),
      ih (fun d hd => hs d (List.mem_cons_of_mem c hd))]
    rfl

theorem dropWhile_head_not {p : Char → Bool} : ∀ (l : List Char) (c : Char),
    (l.dropWhile p).head? = some c → p c = false := by
  intro l
  induction l with
  | nil => intro c h; cases h
  | cons d rest ih =>
    intro c h
    by_cases hd : p d = true
    · rw [List.dropWhile_cons_of_pos hd] at h
      exact ih c h
    · rw [List.dropWhile_cons_of_neg hd] at h
      simp only [List.head?_cons, Option.some.injEq] at h
      rw [← h]
      simpa using hd

theorem takeWhile_dropWhile_nil {p : Char → Bool} (l : List Char) :
    (l.dropWhile p).takeWhile p = [] := by
  cases hh : l.dropWhile p with
  | nil => rfl
  | cons c rest =>
    have hc : p c = false := dropWhile_head_not l c (by rw [hh]; rfl)
    exact List.takeWhile_cons_of_neg (by simp [hc])

theorem nl_mem_takeWhile_of_ws (w b : List Char)
    (hws : ∀ c ∈ w, isJsSpace c = true) :
    '\n' ∈ (w ++ '\n' :: b).takeWhile isJsSpace := by
  rw [takeWhile_append_all w ('\n' :: b) hws,
    List.takeWhile_cons_of_pos (show isJsSpace '\n' = true by decide)]
  simp

/-- Book-keeping for the recursive call of the collapser: the lengths of the
pieces of the whitespace run. -/
theorem splitLast_len (rest q1 q2 : List Char)
    (he : rest.takeWhile isJsSpace = q1 ++ '\n' :: q2) :
    (q2 ++ rest.dropWhile isJsSpace).length + q1.length + 1 = rest.length := by
  have h1 := List.takeWhile_append_dropWhile (p := isJsSpace) (l := rest)
  have h2 : (rest.takeWhile isJsSpace).length + (rest.dropWhile isJsSpace).length
      = rest.length := by
    rw [← List.length_append, h1]
  rw [he] at h2
  simp only [List.length_append, List.length_cons] at h2 ⊢
  omega

/-- The whitespace prefix of the collapser's output equals that of its input
whenever the latter has no newline. -/
theorem takeWhile_cbAux (f : Nat) (l : List Char) (hf : l.length ≤ f)
    (h : '\n' ∉ l.takeWhile isJsSpace) :
    (cbAux f l).takeWhile isJsSpace = l.takeWhile isJsSpace := by
  have hsplit := List.takeWhile_append_dropWhile (p := isJsSpace) (l := l)
  have hlen : (l.takeWhile isJsSpace).length ≤ f :=
    le_trans (List.Sublist.length_le (List.takeWhile_sublist _)) hf
  have hcb : cbAux f l = l.takeWhile isJsSpace ++
      cbAux (f - (l.takeWhile isJsSpace).length) (l.dropWhile isJsSpace) := by
    conv_lhs => rw [← hsplit]
    exact cbAux_append_of_not_mem _ h f _ hlen
  rw [hcb, takeWhile_append_all _ _ (fun c hc => List.mem_takeWhile_imp hc)]
  have hnilB : (cbAux (f - (l.takeWhile isJsSpace).length)
      (l.dropWhile isJsSpace)).takeWhile isJsSpace = [] := by
    cases hX : cbAux (f - (l.takeWhile isJsSpace).length) (l.dropWhile isJsSpace) with
    | nil => rfl
    | cons c r =>
      have hh : (l.dropWhile isJsSpace).head? = some c := by
        rw [← cbAux_head? (f - (l.takeWhile isJsSpace).length), hX]
        rfl
      exact List.takeWhile_cons_of_neg (by simp [dropWhile_head_not l c hh])
  rw [hnilB]
  simp

/-- The collapser never produces a bad run. -/
theorem cbAux_noBad : ∀ (n : Nat) (l : List Char) (f : Nat),
    l.length ≤ n → l.length ≤ f → ¬ BadRun (cbAux f l) := by
  intro n
  induction n with
  | zero =>
    intro l f hn _ hbad
    have hl : l = [] := List.eq_nil_of_length_eq_zero (by omega)
    subst hl
    obtain ⟨a, w, b, he, _, _⟩ := hbad
    cases f with
    | zero => simp [cbAux] at he
    | succ m => simp [cbAux] at he
  | succ m ihm =>
    intro l f hn hf hbad
    cases l with
    | nil =>
      obtain ⟨a, w, b, he, _, _⟩ := hbad
      cases f with
      | zero => simp [cbAux] at he
      | succ m2 => simp [cbAux] at he
    | cons d rest =>
      have hn' : rest.length ≤ m := by
        have := hn
        simp only [List.length_cons] at this
        omega
      cases f with
      | zero => simp at hf
      | succ m2 =>
        have hf' : rest.length ≤ m2 := by
          have := hf
          simp only [List.length_cons] at this
          omega
        simp only [cbAux] at hbad
        by_cases hd : d = '\n'
        · rw [if_pos hd] at hbad
          cases hs : splitLastNl (rest.takeWhile isJsSpace) with
          | some q =>
            obtain ⟨q1, q2⟩ := q
            rw [hs] at hbad
            dsimp only at hbad
            obtain ⟨he, hnq⟩ := splitLastNl_spec _ _ _ hs
            have hlen2 := splitLast_len rest q1 q2 he
            have htwarg : (q2 ++ rest.dropWhile isJsSpace).takeWhile isJsSpace = q2 := by
              rw [takeWhile_append_all q2 _ ?hws, takeWhile_dropWhile_nil]
              · simp
              case hws =>
                intro c hc
                apply List.mem_takeWhile_imp (l := rest) (p := isJsSpace)
                rw [he]
                exact List.mem_append.mpr (Or.inr (List.mem_cons_of_mem _ hc))
            have htwX : (cbAux m2 (q2 ++ rest.dropWhile isJsSpace)).takeWhile isJsSpace
                = q2 := by
              rw [takeWhile_cbAux m2 _ (by omega) (by rw [htwarg]; exact hnq), htwarg]
            rcases badRun_cases _ _ hbad with ⟨_, w, b, hX, hw, hws⟩ | hbad2
            · cases w with
              | nil => exact hw rfl
              | cons w0 w' =>
                rw [List.cons_append] at hX
                injection hX with h1 h2
                have : '\n' ∈ (cbAux m2 (q2 ++ rest.dropWhile isJsSpace)).takeWhile
                    isJsSpace := by
                  rw [h2]
                  exact nl_mem_takeWhile_of_ws w' b
                    (fun c hc => hws c (List.mem_cons_of_mem w0 hc))
                rw [htwX] at this
                exact hnq this
            · rcases badRun_cases _ _ hbad2 with ⟨_, w, b, hX, hw, hws⟩ | hbad3
              · have : '\n' ∈ (cbAux m2 (q2 ++ rest.dropWhile isJsSpace)).takeWhile
                    isJsSpace := by
                  rw [hX]
                  exact nl_mem_takeWhile_of_ws w b hws
                rw [htwX] at this
                exact hnq this
              · exact ihm (q2 ++ rest.dropWhile isJsSpace) m2 (by omega) (by omega) hbad3
          | none =>
            rw [hs] at hbad
            dsimp only at hbad
            have hnn : '\n' ∉ rest.takeWhile isJsSpace := splitLastNl_none _ hs
            rcases badRun_cases _ _ hbad with ⟨_, w, b, hX, hw, hws⟩ | hbad2
            · have : '\n' ∈ (cbAux m2 rest).takeWhile isJsSpace := by
                rw [hX]
                exact nl_mem_takeWhile_of_ws w b hws
              rw [takeWhile_cbAux m2 rest hf' hnn] at this
              exact hnn this
            · exact ihm rest m2 hn' hf' hbad2
        · rw [if_neg hd] at hbad
          rcases badRun_cases _ _ hbad with ⟨h1, _⟩ | hbad2
          · exact hd h1
          · exact ihm rest m2 hn' hf' hbad2

/-- In the absence of a bad run the collapser is the identity. -/
theorem cbAux_fix_of_noBad : ∀ (n : Nat) (l : List Char) (f : Nat),
    l.length ≤ n → l.length ≤ f → ¬ BadRun l → cbAux f l = l := by
  intro n
  induction n with
  | zero =>
    intro l f hn _ _
    have hl : l = [] := List.eq_nil_of_length_eq_zero (by omega)
    subst hl
    cases f with
    | zero => rfl
    | succ m => rfl
  | succ m ihm =>
    intro l f hn hf hnb
    cases l with
    | nil =>
      cases f with
      | zero => rfl
      | succ m2 => rfl
    | cons d rest =>
      have hn' : rest.length ≤ m := by
        have := hn
        simp only [List.length_cons] at this
        omega
      cases f with
      | zero => simp at hf
      | succ m2 =>
        have hf' : rest.length ≤ m2 := by
          have := hf
          simp only [List.length_cons] at this
          omega
        simp only [cbAux]
        by_cases hd : d = '\n'
        · rw [if_pos hd]
          cases hs : splitLastNl (rest.takeWhile isJsSpace) with
          | some q =>
            obtain ⟨q1, q2⟩ := q
            dsimp only
            obtain ⟨he, hnq⟩ := splitLastNl_spec _ _ _ hs
            cases hq1 : q1 with
            | cons x x' =>
              exfalso
              apply hnb
              rw [hq1] at he
              refine ⟨[], x :: x', q2 ++ rest.dropWhile isJsSpace, ?_, by simp, ?_⟩
              · rw [hd]
                simp only [List.nil_append]
                congr 1
                conv_lhs =>
                  rw [← List.takeWhile_append_dropWhile (p := isJsSpace) (l := rest)]
                rw [he]
                simp
              · intro c hc
                apply List.mem_takeWhile_imp (l := rest) (p := isJsSpace)
                rw [he]
                exact List.mem_append.mpr (Or.inl hc)
            | nil =>
              rw [hq1] at he
              simp only [List.nil_append] at he
              cases rest with
              | nil => simp [List.takeWhile] at he
              | cons e rest' =>
                have he2 : e = '\n' ∧ rest'.takeWhile isJsSpace = q2 := by
                  by_cases hew : isJsSpace e = true
                  · rw [List.takeWhile_cons_of_pos hew] at he
                    injection he with u1 u2
                    exact ⟨u1, u2⟩
                  · rw [List.takeWhile_cons_of_neg hew] at he
                    cases he
                obtain ⟨he1, he2⟩ := he2
                have hdw : (e :: rest').dropWhile isJsSpace
                    = rest'.dropWhile isJsSpace := by
                  rw [List.dropWhile_cons_of_pos (by rw [he1]; decide)]
                rw [hdw, ← he2, List.takeWhile_append_dropWhile]
                rw [hd, he1]
                have hlen3 : rest'.length ≤ m := by
                  have := hn'
                  simp only [List.length_cons] at this
                  omega
                have hlen4 : rest'.length ≤ m2 := by
                  have := hf'
                  simp only [List.length_cons] at this
                  omega
                rw [ihm rest' m2 hlen3 hlen4 ?hok]
                case hok =>
                  intro hb
                  exact hnb (badRun_cons d _ (badRun_cons e _ hb))
          | none =>
            dsimp only
            rw [hd]
            congr 1
            exact ihm rest m2 hn' hf' (fun hb => hnb (badRun_cons d _ hb))
        · rw [if_neg hd]
          congr 1
          exact ihm rest m2 hn' hf' (fun hb => hnb (badRun_cons d _ hb))

/-! Structure of the split/join pair used by the line stage. -/

theorem joinNl_cons (x : List Char) (r : List (List Char)) (hr : r ≠ []) :
    joinNl (x :: r) = x ++ '\n' :: joinNl r := by
  cases r with
  | nil => exact absurd rfl hr
  | cons y t => rfl

theorem joinNl_splitNl : ∀ l : List Char, joinNl (splitNl l) = l := by
  intro l
  induction l with
  | nil => rfl
  | cons c rest ih =>
    by_cases hc : c = '\n'
    · rw [show splitNl (c :: rest) = [] :: splitNl rest by
        rw [hc]; exact splitOnChar_cons_sep '\n' rest]
      rw [joinNl_cons [] (splitNl rest) (splitOnChar_ne_nil '\n' rest), ih, hc]
      rfl
    · rw [show splitNl (c :: rest) = (c :: (splitNl rest).headD []) :: (splitNl rest).tail
        from splitOnChar_cons_ne '\n' c rest hc]
      cases hsr : splitNl rest with
      | nil => exact absurd hsr (splitOnChar_ne_nil '\n' rest)
      | cons a t =>
        cases t with
        | nil =>
          simp only [List.headD_cons, List.tail_cons]
          show c :: a = c :: rest
          rw [← ih, hsr]
          rfl
        | cons b t' =>
          simp only [List.headD_cons, List.tail_cons]
          rw [joinNl_cons _ _ (by simp)]
          show (c :: a) ++ '\n' :: joinNl (b :: t') = c :: rest
          rw [List.cons_append]
          congr 1
          rw [← ih, hsr, joinNl_cons a (b :: t') (by simp)]

theorem splitOnChar_not_mem (sep : Char) : ∀ (l : List Char) (L : List Char),
    L ∈ splitOnChar sep l → sep ∉ L := by
  intro l
  induction l with
  | nil =>
    intro L hL
    simp only [splitOnChar, List.mem_singleton] at hL
    rw [hL]
    simp
  | cons c rest ih =>
    intro L hL
    by_cases hc : c = sep
    · rw [hc, splitOnChar_cons_sep] at hL
      rcases List.mem_cons.mp hL with h1 | h2
      · rw [h1]; simp
      · exact ih L h2
    · rw [splitOnChar_cons_ne sep c rest hc] at hL
      rcases List.mem_cons.mp hL with h1 | h2
      · rw [h1]
        intro hmem
        rcases List.mem_cons.mp hmem with hx | hx
        · exact hc hx.symm
        · cases hsr : splitOnChar sep rest with
          | nil => exact absurd hsr (splitOnChar_ne_nil sep rest)
          | cons a t =>
            rw [hsr] at hx
            simp only [List.headD_cons] at hx
            exact ih a (by rw [hsr]; simp) hx
      · cases hsr : splitOnChar sep rest with
        | nil => exact absurd hsr (splitOnChar_ne_nil sep rest)
        | cons a t =>
          rw [hsr] at h2
          simp only [List.tail_cons] at h2
          exact ih L (by rw [hsr]; exact List.mem_cons_of_mem a h2)

theorem splitOnChar_single (sep : Char) : ∀ (x : List Char), sep ∉ x →
    splitOnChar sep x = [x] := by
  intro x
  induction x with
  | nil => intro _; rfl
  | cons c x' ih =>
    intro h
    have hc : ¬ c = sep := fun hcon => h (by rw [hcon]; simp)
    rw [splitOnChar_cons_ne sep c x' hc, ih (fun hm => h (List.mem_cons_of_mem c hm))]
    rfl

theorem splitOnChar_append_cons (sep : Char) : ∀ (x y : List Char), sep ∉ x →
    splitOnChar sep (x ++ sep :: y) = x :: splitOnChar sep y := by
  intro x
  induction x with
  | nil =>
    intro y _
    simp only [List.nil_append]
    exact splitOnChar_cons_sep sep y
  | cons c x' ih =>
    intro y h
    have hc : ¬ c = sep := fun hcon => h (by rw [hcon]; simp)
    rw [List.cons_append, splitOnChar_cons_ne sep c _ hc,
      ih y (fun hm => h (List.mem_cons_of_mem c hm))]
    simp only [List.headD_cons, List.tail_cons]

theorem splitNl_joinNl : ∀ (ms : List (List Char)), ms ≠ [] →
    (∀ L ∈ ms, '\n' ∉ L) → splitNl (joinNl ms) = ms := by
  intro ms
  induction ms with
  | nil => intro h _; exact absurd rfl h
  | cons x ms' ih =>
    intro _ hall
    cases ms' with
    | nil =>
      show splitNl (joinNl [x]) = [x]
      exact splitOnChar_single '\n' x (hall x (by simp))
    | cons y t =>
      rw [joinNl_cons x (y :: t) (by simp)]
      show splitOnChar '\n' (x ++ '\n' :: joinNl (y :: t)) = x :: (y :: t)
      rw [splitOnChar_append_cons '\n' x _ (hall x (by simp))]
      congr 1
      exact ih (by simp) (fun L hL => hall L (List.mem_cons_of_mem x hL))

theorem splitOnChar_headD_prefix (sep : Char) : ∀ (l : List Char),
    ∃ b, l = (splitOnChar sep l).headD [] ++ b := by
  intro l
  induction l with
  | nil => exact ⟨[], rfl⟩
  | cons c rest ih =>
    by_cases hc : c = sep
    · rw [hc, splitOnChar_cons_sep]
      exact ⟨sep :: rest, rfl⟩
    · rw [splitOnChar_cons_ne sep c rest hc]
      simp only [List.headD_cons]
      obtain ⟨b, hb⟩ := ih
      exact ⟨b, by rw [List.cons_append, ← hb]⟩

theorem splitOnChar_infix (sep : Char) : ∀ (l L : List Char),
    L ∈ splitOnChar sep l → ∃ a b, l = a ++ L ++ b := by
  intro l
  induction l with
  | nil =>
    intro L hL
    simp only [splitOnChar, List.mem_singleton] at hL
    exact ⟨[], [], by rw [hL]; rfl⟩
  | cons c rest ih =>
    intro L hL
    by_cases hc : c = sep
    · rw [hc] at hL ⊢
      rw [splitOnChar_cons_sep] at hL
      rcases List.mem_cons.mp hL with h1 | h2
      · exact ⟨[], sep :: rest, by rw [h1]; rfl⟩
      · obtain ⟨a, b, hab⟩ := ih L h2
        exact ⟨sep :: a, b, by rw [hab]; rfl⟩
    · rw [splitOnChar_cons_ne sep c rest hc] at hL
      rcases List.mem_cons.mp hL with h1 | h2
      · obtain ⟨b, hb⟩ := splitOnChar_headD_prefix sep rest
        refine ⟨[], b, ?_⟩
        conv_lhs => rw [hb]
        rw [h1]
        rfl
      · cases hsr : splitOnChar sep rest with
        | nil => exact absurd hsr (splitOnChar_ne_nil sep rest)
        | cons a0 t =>
          rw [hsr] at h2
          simp only [List.tail_cons] at h2
          obtain ⟨a, b, hab⟩ := ih L (by rw [hsr]; exact List.mem_cons_of_mem a0 h2)
          exact ⟨c :: a, b, by rw [hab]; rfl⟩

theorem joinNl_append : ∀ (p q : List (List Char)), p ≠ [] → q ≠ [] →
    joinNl (p ++ q) = joinNl p ++ '\n' :: joinNl q := by
  intro p
  induction p with
  | nil => intro q h _; exact absurd rfl h
  | cons x p' ih =>
    intro q _ hq
    cases p' with
    | nil =>
      rw [List.cons_append, List.nil_append, joinNl_cons x q hq]
      rfl
    | cons y t =>
      rw [List.cons_append, joinNl_cons x ((y :: t) ++ q) (by simp),
        ih q (by simp) hq, joinNl_cons x (y :: t) (by simp)]
      simp

theorem mem_joinNl : ∀ (ms : List (List Char)) (c : Char), c ∈ joinNl ms →
    c = '\n' ∨ ∃ L ∈ ms, c ∈ L := by
  intro ms
  induction ms with
  | nil => intro c h; cases h
  | cons x ms' ih =>
    intro c h
    cases ms' with
    | nil => exact Or.inr ⟨x, by simp, h⟩
    | cons y t =>
      rw [joinNl_cons x (y :: t) (by simp)] at h
      rcases List.mem_append.mp h with hx | hr
      · exact Or.inr ⟨x, by simp, hx⟩
      · rcases List.mem_cons.mp hr with h1 | h2
        · exact Or.inl h1
        · rcases ih c h2 with h3 | ⟨L, hL, hcL⟩
          · exact Or.inl h3
          · exact Or.inr ⟨L, List.mem_cons_of_mem x hL, hcL⟩

theorem append_split_nl : ∀ (x a y rest : List Char),
    x ++ y = a ++ '\n' :: rest → '\n' ∉ x →
    ∃ a2, a = x ++ a2 ∧ y = a2 ++ '\n' :: rest := by
  intro x
  induction x with
  | nil =>
    intro a y rest h _
    exact ⟨a, rfl, by simpa using h⟩
  | cons c x' ih =>
    intro a y rest h hnm
    cases a with
    | nil =>
      simp only [List.nil_append, List.cons_append] at h
      injection h with h1 _
      exact absurd (by rw [h1]; simp : '\n' ∈ c :: x') hnm
    | cons d a1 =>
      rw [List.cons_append, List.cons_append] at h
      injection h with h1 h2
      obtain ⟨a2, ha, hy⟩ := ih a1 y rest h2 (fun hm => hnm (List.mem_cons_of_mem c hm))
      exact ⟨a2, by rw [h1, ha]; rfl, hy⟩

theorem split_join : ∀ (ms : List (List Char)) (a rest : List Char),
    (∀ L ∈ ms, '\n' ∉ L) → joinNl ms = a ++ '\n' :: rest →
    ∃ p q, ms = p ++ q ∧ p ≠ [] ∧ q ≠ [] ∧ a = joinNl p ∧ rest = joinNl q := by
  intro ms
  induction ms with
  | nil =>
    intro a rest _ h
    exact absurd (congrArg List.length h) (by simp [joinNl]; omega)
  | cons L ms' ih =>
    intro a rest hall h
    cases ms' with
    | nil =>
      exfalso
      apply hall L (by simp)
      show '\n' ∈ L
      have hLr : (L : List Char) = a ++ '\n' :: rest := h
      rw [hLr]
      simp
    | cons M t =>
      rw [joinNl_cons L (M :: t) (by simp)] at h
      obtain ⟨a2, ha, hy⟩ := append_split_nl L a ('\n' :: joinNl (M :: t)) rest h
        (hall L (by simp))
      cases a2 with
      | nil =>
        simp only [List.append_nil] at ha
        simp only [List.nil_append] at hy
        injection hy with _ h2
        exact ⟨[L], M :: t, rfl, by simp, by simp, by rw [ha]; rfl, h2.symm⟩
      | cons c a2' =>
        rw [List.cons_append] at hy
        injection hy with h1 h2
        obtain ⟨p', q', hms, hp', hq', hap, hrq⟩ :=
          ih a2' rest (fun X hX => hall X (List.mem_cons_of_mem L hX)) h2
        refine ⟨L :: p', q', by rw [hms]; rfl, by simp, hq', ?_, hrq⟩
        rw [joinNl_cons L p' hp', ha, hap, h1]

/-! Basic properties of the trimming primitives. -/

theorem head?_append_of_ne_nil (x y : List Char) (h : x ≠ []) :
    (x ++ y).head? = x.head? := by
  cases x with
  | nil => exact absurd rfl h
  | cons a t => rfl

theorem trimEnd_decomp (l : List Char) :
    l = trimEnd l ++ (l.reverse.takeWhile isJsSpace).reverse := by
  unfold trimEnd
  conv_lhs => rw [← List.reverse_reverse l]
  conv_lhs => rw [← List.takeWhile_append_dropWhile (p := isJsSpace) (l := l.reverse)]
  rw [List.reverse_append]

theorem trimL_head (l : List Char) (c : Char) (h : (trimL l).head? = some c) :
    isJsSpace c = false := by
  apply dropWhile_head_not l c
  rw [trimEnd_decomp (l.dropWhile isJsSpace)]
  have hne : trimL l ≠ [] := by
    intro hcon
    rw [hcon] at h
    cases h
  rw [show trimEnd (l.dropWhile isJsSpace) = trimL l from rfl,
    head?_append_of_ne_nil _ _ hne]
  exact h

theorem trimL_last (l : List Char) (c : Char) (h : (trimL l).getLast? = some c) :
    isJsSpace c = false := by
  have h2 : ((l.dropWhile isJsSpace).reverse.dropWhile isJsSpace).head? = some c := by
    rw [← List.getLast?_reverse]
    exact h
  exact dropWhile_head_not _ c h2

theorem dropWhile_head_fix {p : Char → Bool} (l : List Char)
    (h : ∀ c, l.head? = some c → p c = false) : l.dropWhile p = l := by
  cases l with
  | nil => rfl
  | cons d r => exact List.dropWhile_cons_of_neg (by simp [h d rfl])

theorem trimEnd_fix (l : List Char)
    (h : ∀ c, l.getLast? = some c → isJsSpace c = false) : trimEnd l = l := by
  unfold trimEnd
  rw [dropWhile_head_fix l.reverse
    (fun c hc => h c (by rw [← List.head?_reverse]; exact hc)), List.reverse_reverse]

theorem trimL_fix (l : List Char)
    (hh : ∀ c, l.head? = some c → isJsSpace c = false)
    (hl : ∀ c, l.getLast? = some c → isJsSpace c = false) : trimL l = l := by
  unfold trimL
  rw [dropWhile_head_fix l hh, trimEnd_fix l hl]

theorem trimL_idem (l : List Char) : trimL (trimL l) = trimL l :=
  trimL_fix (trimL l) (trimL_head l) (trimL_last l)

theorem trimL_decomp (l : List Char) : ∃ a b, l = a ++ trimL l ++ b := by
  refine ⟨l.takeWhile isJsSpace,
    ((l.dropWhile isJsSpace).reverse.takeWhile isJsSpace).reverse, ?_⟩
  conv_lhs => rw [← List.takeWhile_append_dropWhile (p := isJsSpace) (l := l)]
  rw [List.append_assoc]
  congr 1
  exact trimEnd_decomp (l.dropWhile isJsSpace)

theorem mem_trimL (l : List Char) (c : Char) (h : c ∈ trimL l) : c ∈ l := by
  obtain ⟨a, b, hab⟩ := trimL_decomp l
  rw [hab]
  simp only [List.mem_append]
  exact Or.inl (Or.inr h)

theorem noDblB_infix (a m b : List Char) (h : noDblB (a ++ m ++ b) = true) :
    noDblB m = true :=
  noDblB_prefix m b (noDblB_suffix a (m ++ b) (by rw [← List.append_assoc]; exact h))

theorem allWs_of_trimL_eq_nil (l : List Char) (h : trimL l = []) :
    ∀ c ∈ l, isJsSpace c = true := by
  intro c hc
  have h1 : (l.dropWhile isJsSpace).reverse.dropWhile isJsSpace = [] :=
    List.reverse_eq_nil_iff.mp h
  have h2 : ∀ x ∈ l.dropWhile isJsSpace, isJsSpace x = true := by
    intro x hx
    exact List.dropWhile_eq_nil_iff.mp h1 x (by simpa using hx)
  rw [← List.takeWhile_append_dropWhile (p := isJsSpace) (l := l)] at hc
  rcases List.mem_append.mp hc with h3 | h3
  · exact List.mem_takeWhile_imp h3
  · exact h2 c h3

theorem trimL_eq_nil_of_allWs (l : List Char) (h : ∀ c ∈ l, isJsSpace c = true) :
    trimL l = [] := by
  unfold trimL
  rw [List.dropWhile_eq_nil_iff.mpr h]
  rfl

/-! The line stage in list-of-lines form: trimming the joined string drops the
leading and trailing runs of empty lines when every line is already trimmed. -/

/-- An empty line. -/
def emptyLine (L : List Char) : Bool := L.isEmpty

/-- Drop leading and trailing empty lines. -/
def trimLines (ms : List (List Char)) : List (List Char) :=
  ((ms.dropWhile emptyLine).reverse.dropWhile emptyLine).reverse

theorem dropWhile_joinNl : ∀ (ms : List (List Char)),
    (∀ L ∈ ms, ∀ c, L.head? = some c → isJsSpace c = false) →
    (joinNl ms).dropWhile isJsSpace = joinNl (ms.dropWhile emptyLine) := by
  intro ms
  induction ms with
  | nil => intro _; rfl
  | cons L ms' ih =>
    intro hhead
    cases L with
    | nil =>
      cases ms' with
      | nil => rfl
      | cons M t =>
        rw [joinNl_cons [] (M :: t) (by simp), List.nil_append,
          List.dropWhile_cons_of_pos (show isJsSpace '\n' = true by decide),
          ih (fun X hX => hhead X (List.mem_cons_of_mem _ hX))]
        congr 1
    | cons c L' =>
      have hc : isJsSpace c = false := hhead (c :: L') (by simp) c rfl
      cases ms' with
      | nil =>
        show (c :: L').dropWhile isJsSpace = joinNl (((c :: L') :: []).dropWhile emptyLine)
        rw [List.dropWhile_cons_of_neg (by simp [hc]),
          List.dropWhile_cons_of_neg (by simp [emptyLine])]
        rfl
      | cons M t =>
        rw [joinNl_cons (c :: L') (M :: t) (by simp), List.cons_append,
          List.dropWhile_cons_of_neg (by simp [hc]),
          List.dropWhile_cons_of_neg (by simp [emptyLine]),
          joinNl_cons (c :: L') (M :: t) (by simp), List.cons_append]

theorem reverse_joinNl : ∀ (ms : List (List Char)),
    (joinNl ms).reverse = joinNl (ms.reverse.map List.reverse) := by
  intro ms
  induction ms with
  | nil => rfl
  | cons x ms' ih =>
    cases ms' with
    | nil => rfl
    | cons y t =>
      rw [joinNl_cons x (y :: t) (by simp), List.reverse_append, List.reverse_cons, ih]
      have h1 : (x :: y :: t).reverse.map List.reverse
          = (y :: t).reverse.map List.reverse ++ [x.reverse] := by
        simp
      rw [h1, joinNl_append _ [x.reverse] (by simp) (by simp),
        show joinNl [x.reverse] = x.reverse from rfl]
      simp

theorem dropWhile_map_reverse : ∀ (ms : List (List Char)),
    (ms.map List.reverse).dropWhile emptyLine
      = (ms.dropWhile emptyLine).map List.reverse := by
  intro ms
  induction ms with
  | nil => rfl
  | cons L t ih =>
    cases L with
    | nil =>
      simp only [List.map_cons]
      rw [List.dropWhile_cons_of_pos (show emptyLine ([] : List Char).reverse = true from rfl),
        List.dropWhile_cons_of_pos (show emptyLine [] = true from rfl)]
      exact ih
    | cons c L' =>
      have h1 : ¬ emptyLine (c :: L').reverse = true := by simp [emptyLine]
      have h2 : ¬ emptyLine (c :: L') = true := by simp [emptyLine]
      simp only [List.map_cons]
      rw [List.dropWhile_cons_of_neg h1, List.dropWhile_cons_of_neg h2]
      simp

theorem trimEnd_joinNl (ms : List (List Char))
    (hlast : ∀ L ∈ ms, ∀ c, L.getLast? = some c → isJsSpace c = false) :
    trimEnd (joinNl ms) = joinNl ((ms.reverse.dropWhile emptyLine).reverse) := by
  unfold trimEnd
  rw [reverse_joinNl ms, dropWhile_joinNl (ms.reverse.map List.reverse) ?hh]
  case hh =>
    intro L hL c hc
    obtain ⟨X, hX, hXr⟩ := List.mem_map.mp hL
    apply hlast X (by simpa using hX) c
    rw [← List.head?_reverse, hXr]
    exact hc
  rw [dropWhile_map_reverse ms.reverse]
  have h3 := reverse_joinNl (ms.reverse.dropWhile emptyLine).reverse
  rw [List.reverse_reverse] at h3
  rw [← h3, List.reverse_reverse]

theorem trimL_joinNl (ms : List (List Char))
    (hhead : ∀ L ∈ ms, ∀ c, L.head? = some c → isJsSpace c = false)
    (hlast : ∀ L ∈ ms, ∀ c, L.getLast? = some c → isJsSpace c = false) :
    trimL (joinNl ms) = joinNl (trimLines ms) := by
  unfold trimL trimLines
  rw [dropWhile_joinNl ms hhead, trimEnd_joinNl (ms.dropWhile emptyLine) ?hl]
  case hl =>
    intro L hL
    exact hlast L ((List.dropWhile_sublist _).mem hL)

theorem mem_trimLines (ms : List (List Char)) (L : List Char) (h : L ∈ trimLines ms) :
    L ∈ ms := by
  unfold trimLines at h
  rw [List.mem_reverse] at h
  have h2 := (List.dropWhile_sublist _).mem h
  rw [List.mem_reverse] at h2
  exact (List.dropWhile_sublist _).mem h2

theorem lineStage_idem (v : List Char) : lineStage (lineStage v) = lineStage v := by
  have hhead : ∀ L ∈ (splitNl v).map trimL, ∀ c, L.head? = some c →
      isJsSpace c = false := by
    intro L hL c hc
    obtain ⟨X, _, hXr⟩ := List.mem_map.mp hL
    rw [← hXr] at hc
    exact trimL_head X c hc
  have hlast : ∀ L ∈ (splitNl v).map trimL, ∀ c, L.getLast? = some c →
      isJsSpace c = false := by
    intro L hL c hc
    obtain ⟨X, _, hXr⟩ := List.mem_map.mp hL
    rw [← hXr] at hc
    exact trimL_last X c hc
  have hnl : ∀ L ∈ (splitNl v).map trimL, '\n' ∉ L := by
    intro L hL hm
    obtain ⟨X, hX, hXr⟩ := List.mem_map.mp hL
    rw [← hXr] at hm
    exact splitOnChar_not_mem '\n' v X hX (mem_trimL X '\n' hm)
  have hR : lineStage v = joinNl (trimLines ((splitNl v).map trimL)) :=
    trimL_joinNl _ hhead hlast
  have htfix : trimL (lineStage v) = lineStage v :=
    trimL_idem (joinNl ((splitNl v).map trimL))
  cases hns : trimLines ((splitNl v).map trimL) with
  | nil =>
    rw [hR, hns]
    decide
  | cons N ns' =>
    have hmem : ∀ L ∈ N :: ns', L ∈ (splitNl v).map trimL := by
      intro L hL
      apply mem_trimLines
      rw [hns]
      exact hL
    have hnl2 : ∀ L ∈ N :: ns', '\n' ∉ L := fun L hL => hnl L (hmem L hL)
    have hsp : splitNl (lineStage v) = N :: ns' := by
      rw [hR, hns]
      exact splitNl_joinNl (N :: ns') (by simp) hnl2
    have htr : ∀ L ∈ N :: ns', trimL L = L := by
      intro L hL
      obtain ⟨X, _, hXr⟩ := List.mem_map.mp (hmem L hL)
      rw [← hXr]
      exact trimL_idem X
    show trimL (joinNl ((splitNl (lineStage v)).map trimL)) = lineStage v
    rw [hsp]
    have hmap : (N :: ns').map trimL = N :: ns' := by
      rw [show (N :: ns').map trimL = (N :: ns').map id from List.map_congr_left htr,
        List.map_id]
    rw [hmap, ← hns, ← hR]
    exact htfix

/-! The whitespace invariants survive the line stage, and a bad run in its
output reflects back to one in its input. -/

theorem mem_joinNl_of_mem : ∀ (ms : List (List Char)) (L : List Char) (c : Char),
    L ∈ ms → c ∈ L → c ∈ joinNl ms := by
  intro ms
  induction ms with
  | nil => intro L c hL _; cases hL
  | cons x ms' ih =>
    intro L c hL hc
    cases ms' with
    | nil =>
      have h1 : L = x := by simpa using hL
      show c ∈ x
      rw [← h1]
      exact hc
    | cons y t =>
      rw [joinNl_cons x (y :: t) (by simp)]
      rcases List.mem_cons.mp hL with h1 | h1
      · exact List.mem_append.mpr (Or.inl (h1 ▸ hc))
      · exact List.mem_append.mpr (Or.inr (List.mem_cons_of_mem '\n' (ih L c h1 hc)))

theorem mem_lineStage (v : List Char) (c : Char) (h : c ∈ lineStage v) :
    c = '\n' ∨ c ∈ v := by
  have h1 : c ∈ joinNl ((splitNl v).map trimL) := mem_trimL _ c h
  rcases mem_joinNl _ c h1 with h2 | h3
  · exact Or.inl h2
  · obtain ⟨L, hL, hcL⟩ := h3
    obtain ⟨X, hX, hXr⟩ := List.mem_map.mp hL
    rw [← hXr] at hcL
    have hcX : c ∈ X := mem_trimL X c hcL
    obtain ⟨a, b, hab⟩ := splitOnChar_infix '\n' v X hX
    right
    rw [hab]
    simp [hcX]

theorem noDblB_joinNl : ∀ (ms : List (List Char)),
    (∀ L ∈ ms, noDblB L = true) → noDblB (joinNl ms) = true := by
  intro ms
  induction ms with
  | nil => intro _; rfl
  | cons x ms' ih =>
    intro hall
    cases ms' with
    | nil => exact hall x (by simp)
    | cons y t =>
      rw [joinNl_cons x (y :: t) (by simp)]
      refine noDblB_append x '\n' (joinNl (y :: t)) (hall x (by simp)) ?hb (by decide)
      rw [noDblB_cons]
      exact ⟨ih (fun L hL => hall L (List.mem_cons_of_mem x hL)),
        fun hp => absurd hp.1 (by decide)⟩

theorem noDblB_lineStage (v : List Char) (hv : noDblB v = true) :
    noDblB (lineStage v) = true := by
  have hlines : ∀ L ∈ (splitNl v).map trimL, noDblB L = true := by
    intro L hL
    obtain ⟨X, hX, hXr⟩ := List.mem_map.mp hL
    obtain ⟨a, b, hab⟩ := splitOnChar_infix '\n' v X hX
    have hX2 : noDblB X = true := noDblB_infix a X b (by rw [← hab]; exact hv)
    obtain ⟨a2, b2, hab2⟩ := trimL_decomp X
    rw [← hXr]
    exact noDblB_infix a2 (trimL X) b2 (by rw [← hab2]; exact hX2)
  have hj : noDblB (joinNl ((splitNl v).map trimL)) = true := noDblB_joinNl _ hlines
  obtain ⟨a3, b3, hab3⟩ := trimL_decomp (joinNl ((splitNl v).map trimL))
  have hfin : noDblB (trimL (joinNl ((splitNl v).map trimL))) = true :=
    noDblB_infix a3 _ b3 (by rw [← hab3]; exact hj)
  exact hfin

theorem badRun_infix (T t a0 b0 : List Char) (hd : T = a0 ++ t ++ b0)
    (h : BadRun t) : BadRun T := by
  obtain ⟨a, w, b, hab, hw, hws⟩ := h
  refine ⟨a0 ++ a, w, b ++ b0, ?_, hw, hws⟩
  rw [hd, hab]
  simp

/-- A bad run in the line-trimmed join comes from a bad run in the plain
join: the all-whitespace window must consist of separators and all-whitespace
lines, and those lines are all-whitespace before trimming too. -/
theorem badRun_join_transfer (ms0 : List (List Char))
    (hnl0 : ∀ L ∈ ms0, '\n' ∉ L)
    (hbad : BadRun (joinNl (ms0.map trimL))) : BadRun (joinNl ms0) := by
  have hnl' : ∀ L ∈ ms0.map trimL, '\n' ∉ L := by
    intro L hL hm
    obtain ⟨X, hX, hXr⟩ := List.mem_map.mp hL
    rw [← hXr] at hm
    exact hnl0 X hX (mem_trimL X '\n' hm)
  obtain ⟨a, w, b, he, hw, hws⟩ := hbad
  obtain ⟨p, q, hpq, hp, hq, hap, hwq⟩ := split_join (ms0.map trimL) a (w ++ '\n' :: b)
    hnl' he
  have hnlq : ∀ L ∈ q, '\n' ∉ L := fun L hL =>
    hnl' L (by rw [hpq]; exact List.mem_append.mpr (Or.inr hL))
  obtain ⟨p2, q2, hq2, hp2, hq2ne, hwp2, hbq2⟩ := split_join q w b hnlq hwq.symm
  have hp2lines : ∀ L ∈ p2, L = [] := by
    intro L hL
    have hLms : L ∈ ms0.map trimL := by
      rw [hpq, hq2]
      exact List.mem_append.mpr (Or.inr (List.mem_append.mpr (Or.inl hL)))
    obtain ⟨X, _, hXr⟩ := List.mem_map.mp hLms
    have hLws : ∀ c ∈ L, isJsSpace c = true := by
      intro c hc
      exact hws c (by rw [hwp2]; exact mem_joinNl_of_mem p2 L c hL hc)
    cases hLc : L with
    | nil => rfl
    | cons c0 L0 =>
      exfalso
      have hhd : L.head? = some c0 := by rw [hLc]; rfl
      have hcw : isJsSpace c0 = true := hLws c0 (by rw [hLc]; simp)
      rw [← hXr] at hhd
      rw [trimL_head X c0 hhd] at hcw
      cases hcw
  have hp2len : 2 ≤ p2.length := by
    cases p2 with
    | nil => exact absurd rfl hp2
    | cons X1 t1 =>
      cases t1 with
      | nil =>
        exfalso
        apply hw
        rw [hwp2, show joinNl [X1] = X1 from rfl, hp2lines X1 (by simp)]
      | cons X2 t2 => simp
  obtain ⟨P, Q, hms0, hmP, hmQ⟩ := List.map_eq_append_iff.mp (by rw [← hpq])
  obtain ⟨P2, Q2, hQsp, hmP2, hmQ2⟩ := List.map_eq_append_iff.mp (by rw [← hq2]; exact hmQ)
  have hPne : P ≠ [] := by
    intro hcon
    apply hp
    rw [← hmP, hcon]
    rfl
  have hP2ne2 : 2 ≤ P2.length := by
    have := congrArg List.length hmP2
    simp only [List.length_map] at this
    omega
  have hQ2ne : Q2 ≠ [] := by
    intro hcon
    apply hq2ne
    rw [← hmQ2, hcon]
    rfl
  have hP2ws : ∀ X ∈ P2, ∀ c ∈ X, isJsSpace c = true := by
    intro X hX c hc
    have : trimL X ∈ p2 := by
      rw [← hmP2]
      exact List.mem_map_of_mem trimL hX
    exact allWs_of_trimL_eq_nil X (hp2lines (trimL X) this) c hc
  have hP2ne : P2 ≠ [] := by
    intro hcon
    rw [hcon] at hP2ne2
    simp at hP2ne2
  refine ⟨joinNl P, joinNl P2, joinNl Q2, ?_, ?_, ?_⟩
  · rw [hms0, hQsp, joinNl_append P (P2 ++ Q2) hPne
      (by intro hcon; rcases List.append_eq_nil.mp hcon with ⟨h1, _⟩; exact hP2ne h1),
      joinNl_append P2 Q2 hP2ne hQ2ne]
  · cases hP2c : P2 with
    | nil => exact absurd hP2c hP2ne
    | cons Y1 t1 =>
      cases t1 with
      | nil =>
        exfalso
        rw [hP2c] at hP2ne2
        simp at hP2ne2
      | cons Y2 t2 =>
        rw [joinNl_cons Y1 (Y2 :: t2) (by simp)]
        simp
  · intro c hc
    rcases mem_joinNl P2 c hc with h1 | ⟨L, hL, hcL⟩
    · rw [h1]; decide
    · exact hP2ws L hL c hcL

theorem noBad_lineStage (v : List Char) (hv : ¬ BadRun v) : ¬ BadRun (lineStage v) := by
  intro hbad
  apply hv
  obtain ⟨a0, b0, hd⟩ := trimL_decomp (joinNl ((splitNl v).map trimL))
  have h1 : BadRun (joinNl ((splitNl v).map trimL)) :=
    badRun_infix _ _ a0 b0 hd hbad
  have h2 := badRun_join_transfer (splitNl v)
    (fun L hL => splitOnChar_not_mem '\n' v L hL) h1
  rw [joinNl_splitNl v] at h2
  exact h2

/-- The whitespace-normalization tail of stripHtml is idempotent. -/
theorem wsNormalize_idem (l : List Char) :
    wsNormalize (wsNormalize l) = wsNormalize l := by
  have hu_tab : '\t' ∉ collapseSpaces l := csAux_not_tab false l
  have hu_dbl : noDblB (collapseSpaces l) = true := csAux_noDbl l false
  have hv_tab : '\t' ∉ collapseBlank (collapseSpaces l) := by
    intro hm
    rcases mem_cbAux _ _ '\t' hm with h1 | h1
    · exact hu_tab h1
    · exact absurd h1 (by decide)
  have hv_dbl : noDblB (collapseBlank (collapseSpaces l)) = true :=
    cbAux_noDbl _ _ hu_dbl
  have hv_noBad : ¬ BadRun (collapseBlank (collapseSpaces l)) :=
    cbAux_noBad (collapseSpaces l).length _ _ (le_refl _) (le_refl _)
  have ht_tab : '\t' ∉ wsNormalize l := by
    intro hm
    rcases mem_lineStage _ '\t' hm with h1 | h1
    · exact absurd h1 (by decide)
    · exact hv_tab h1
  have ht_dbl : noDblB (wsNormalize l) = true := noDblB_lineStage _ hv_dbl
  have ht_noBad : ¬ BadRun (wsNormalize l) := noBad_lineStage _ hv_noBad
  show lineStage (collapseBlank (collapseSpaces (wsNormalize l))) = wsNormalize l
  rw [collapseSpaces_id _ ht_tab ht_dbl,
    show collapseBlank (wsNormalize l) = wsNormalize l from
      cbAux_fix_of_noBad (wsNormalize l).length _ _ (le_refl _) (le_refl _) ht_noBad]
  exact lineStage_idem _

/-! On strings without "<" and "&" every stage before the whitespace
normalization of stripHtml is the identity. -/

theorem char_toNat_ofNat {n : Nat} (h : n.isValidChar) : (Char.ofNat n).toNat = n := by
  rw [Char.ofNat, dif_pos h]
  rfl

/-- ASCII lowercasing can only produce a lowercase letter, so any character
whose lowercase form lies outside a-z was already that character. -/
theorem toLower_fix {c x : Char}
    (hx : x.toNat < 65 ∨ (90 < x.toNat ∧ x.toNat < 97) ∨ 122 < x.toNat)
    (h : c.toLower = x) : c = x := by
  unfold Char.toLower at h
  dsimp only at h
  split at h
  · rename_i hr
    exfalso
    have h2 := congrArg Char.toNat h
    have hv : (c.toNat + 32).isValidChar := by
      left
      show c.toNat + 32 < 55296
      omega
    rw [char_toNat_ofNat hv] at h2
    omega
  · exact h

theorem matchesCI_head_lt {tag : List Char} {c : Char} {cs : List Char}
    (h : matchesCI ('<' :: tag) (c :: cs) = true) : c = '<' := by
  simp only [matchesCI, Bool.and_eq_true] at h
  have h3 : c.toLower = '<'.toLower := (beq_iff_eq.mp h.1).symm
  exact toLower_fix (by decide) (h3.trans (by decide))

theorem isPrefixOf_head {t : List Char} {c : Char} {cs : List Char}
    (h : List.isPrefixOf ('&' :: t) (c :: cs) = true) : c = '&' := by
  simp only [List.isPrefixOf, Bool.and_eq_true] at h
  exact (beq_iff_eq.mp h.1).symm

theorem tagBlockAt_none {tag l : List Char} (h : '<' ∉ l) : tagBlockAt tag l = none := by
  unfold tagBlockAt
  rw [if_neg ?hm]
  case hm =>
    intro hmat
    cases l with
    | nil => simp [matchesCI] at hmat
    | cons c cs => exact h (by rw [matchesCI_head_lt hmat]; simp)

theorem removeTagBlocksAux_id {tag : List Char} : ∀ (f : Nat) (l : List Char),
    '<' ∉ l → removeTagBlocksAux tag f l = l := by
  intro f
  induction f with
  | zero => intro l _; rfl
  | succ m ih =>
    intro l h
    cases l with
    | nil => rfl
    | cons c rest =>
      simp only [removeTagBlocksAux, tagBlockAt_none h]
      rw [ih rest (fun hm => h (List.mem_cons_of_mem c hm))]

theorem removeTagBlocks_id (tag l : List Char) (h : '<' ∉ l) :
    removeTagBlocks tag l = l :=
  removeTagBlocksAux_id l.length l h

theorem findMatchAt_none {cands : List (List Char)} {c : Char} {cs : List Char}
    (hc : c ≠ '<') (hall : ∀ p ∈ cands, p.head? = some '<') :
    findMatchAt cands (c :: cs) = none := by
  induction cands with
  | nil => rfl
  | cons p ps ih =>
    simp only [findMatchAt]
    rw [if_neg ?hm]
    · exact ih (fun q hq => hall q (List.mem_cons_of_mem p hq))
    case hm =>
      intro hmat
      cases p with
      | nil => exact absurd (hall [] (by simp)) (by simp)
      | cons p0 pt =>
        have hp0 : p0 = '<' := by simpa using hall (p0 :: pt) (by simp)
        rw [hp0] at hmat
        exact hc (matchesCI_head_lt hmat)

theorem replaceTagsAux_id {cands : List (List Char)} {repl : List Char}
    (hall : ∀ p ∈ cands, p.head? = some '<') :
    ∀ (f : Nat) (l : List Char), '<' ∉ l → replaceTagsAux cands repl f l = l := by
  intro f
  induction f with
  | zero => intro l _; rfl
  | succ m ih =>
    intro l h
    cases l with
    | nil => rfl
    | cons c rest =>
      have hc : c ≠ '<' := fun hcon => h (by rw [hcon]; simp)
      simp only [replaceTagsAux, findMatchAt_none hc hall]
      rw [ih rest (fun hm => h (List.mem_cons_of_mem c hm))]

theorem replaceTagsCI_id (cands : List (List Char)) (repl l : List Char)
    (hall : ∀ p ∈ cands, p.head? = some '<') (h : '<' ∉ l) :
    replaceTagsCI cands repl l = l :=
  replaceTagsAux_id hall l.length l h

theorem brMatchAt_none {l : List Char} (h : '<' ∉ l) : brMatchAt l = none := by
  unfold brMatchAt
  rw [if_neg ?hm]
  case hm =>
    intro hmat
    cases l with
    | nil => simp [matchesCI] at hmat
    | cons c cs => exact h (by rw [matchesCI_head_lt hmat]; simp)

theorem replaceBrAux_id : ∀ (f : Nat) (l : List Char), '<' ∉ l →
    replaceBrAux f l = l := by
  intro f
  induction f with
  | zero => intro l _; rfl
  | succ m ih =>
    intro l h
    cases l with
    | nil => rfl
    | cons c rest =>
      simp only [replaceBrAux, brMatchAt_none h]
      rw [ih rest (fun hm => h (List.mem_cons_of_mem c hm))]

theorem replaceBr_id (l : List Char) (h : '<' ∉ l) : replaceBr l = l :=
  replaceBrAux_id l.length l h

theorem stripAllTagsAux_id : ∀ (f : Nat) (l : List Char), '<' ∉ l →
    stripAllTagsAux f l = l := by
  intro f
  induction f with
  | zero => intro l _; rfl
  | succ m ih =>
    intro l h
    cases l with
    | nil => rfl
    | cons c rest =>
      have hc : ¬ c = '<' := fun hcon => h (by rw [hcon]; simp)
      simp only [stripAllTagsAux]
      rw [if_neg hc, ih rest (fun hm => h (List.mem_cons_of_mem c hm))]

theorem stripAllTags_id (l : List Char) (h : '<' ∉ l) : stripAllTags l = l :=
  stripAllTagsAux_id l.length l h

theorem replaceAllAux_id {t repl : List Char} : ∀ (f : Nat) (l : List Char), '&' ∉ l →
    replaceAllAux ('&' :: t) repl f l = l := by
  intro f
  induction f with
  | zero => intro l _; rfl
  | succ m ih =>
    intro l h
    cases l with
    | nil => rfl
    | cons c rest =>
      have hc : c ≠ '&' := fun hcon => h (by rw [hcon]; simp)
      simp only [replaceAllAux]
      rw [if_neg ?hp, ih rest (fun hm => h (List.mem_cons_of_mem c hm))]
      case hp =>
        intro hpre
        exact hc (isPrefixOf_head hpre)

theorem foldl_replaceAll_id : ∀ (es : List (List Char × List Char)) (l : List Char),
    '&' ∉ l → (∀ p ∈ es, p.1.head? = some '&') →
    es.foldl (fun acc p => replaceAllStr p.1 p.2 acc) l = l := by
  intro es
  induction es with
  | nil => intro l _ _; rfl
  | cons e es' ih =>
    intro l h hall
    simp only [List.foldl_cons]
    have he : e.1.head? = some '&' := hall e (by simp)
    have hrw : replaceAllStr e.1 e.2 l = l := by
      cases he1 : e.1 with
      | nil => rw [he1] at he; cases he
      | cons c t =>
        rw [he1] at he
        simp only [List.head?_cons, Option.some.injEq] at he
        unfold replaceAllStr
        rw [he]
        exact replaceAllAux_id l.length l h
    rw [hrw]
    exact ih l h (fun p hp => hall p (List.mem_cons_of_mem e hp))

theorem decodeEntities_id (l : List Char) (h : '&' ∉ l) : decodeEntities l = l :=
  foldl_replaceAll_id entities l h (by decide)

theorem decodeDecAux_id : ∀ (f : Nat) (l : List Char), '&' ∉ l →
    decodeDecAux f l = l := by
  intro f
  induction f with
  | zero => intro l _; rfl
  | succ m ih =>
    intro l h
    cases l with
    | nil => rfl
    | cons c rest =>
      have hc : ¬ c = '&' := fun hcon => h (by rw [hcon]; simp)
      simp only [decodeDecAux]
      rw [if_neg hc, ih rest (fun hm => h (List.mem_cons_of_mem c hm))]

theorem decodeDec_id (l : List Char) (h : '&' ∉ l) : decodeDec l = l :=
  decodeDecAux_id l.length l h

theorem decodeHexAux_id : ∀ (f : Nat) (l : List Char), '&' ∉ l →
    decodeHexAux f l = l := by
  intro f
  induction f with
  | zero => intro l _; rfl
  | succ m ih =>
    intro l h
    cases l with
    | nil => rfl
    | cons c rest =>
      have hc : ¬ c = '&' := fun hcon => h (by rw [hcon]; simp)
      simp only [decodeHexAux]
      rw [if_neg hc, ih rest (fun hm => h (List.mem_cons_of_mem c hm))]

theorem decodeHex_id (l : List Char) (h : '&' ∉ l) : decodeHex l = l :=
  decodeHexAux_id l.length l h

/-- On a string without "<" and "&" the whole of stripHtml reduces to its
whitespace-normalization tail. -/
theorem stripHtml_pre_id (l : List Char) (h1 : '<' ∉ l) (h2 : '&' ∉ l) :
    stripHtml l = wsNormalize l := by
  show wsNormalize (decodeHex (decodeDec (decodeEntities (stripAllTags
    (replaceTagsCI ulOlTags ['\n'] (replaceBr (replaceTagsCI blockCloseTags ['\n']
      (removeTagBlocks "style".toList (removeTagBlocks "script".toList l)))))))))
    = wsNormalize l
  rw [removeTagBlocks_id _ l h1, removeTagBlocks_id _ l h1,
    replaceTagsCI_id _ _ l (by decide) h1, replaceBr_id l h1,
    replaceTagsCI_id _ _ l (by decide) h1, stripAllTags_id l h1,
    decodeEntities_id l h2, decodeDec_id l h2, decodeHex_id l h2]

/-- Counterexample to claim C6 as stated: stripHtml is not idempotent on every
input.  The entity pass rewrites "&amp;" to "&" and can thereby manufacture a
fresh entity: stripHtml("&amp;amp;") = "&amp;", and a second application
decodes it again to "&". -/
theorem claim_C6_counterexample :
    stripHtml (stripHtml "&amp;amp;".toList) ≠ stripHtml "&amp;amp;".toList := by
  decide

/-- Claim C6 (amended): stripHtml is idempotent on every input whose
normalized output contains no "<" and no "&" (in particular on every
already-normalized string without those characters).  On such outputs each
tag- and entity-stage is the identity, and the whitespace-normalization tail
(collapse space/tab runs, collapse blank lines, trim lines and ends) is
idempotent unconditionally. -/
theorem claim_C6 (s : List Char) (h1 : '<' ∉ stripHtml s) (h2 : '&' ∉ stripHtml s) :
    stripHtml (stripHtml s) = stripHtml s := by
  rw [stripHtml_pre_id (stripHtml s) h1 h2]
  exact wsNormalize_idem (decodeHex (decodeDec (decodeEntities (stripAllTags
    (replaceTagsCI ulOlTags ['\n'] (replaceBr (replaceTagsCI blockCloseTags ['\n']
      (removeTagBlocks "style".toList (removeTagBlocks "script".toList s)))))))))

/-- Witness for claim C6 at a concrete input: "a  b" normalizes to "a b",
which contains neither "<" nor "&", and a second application leaves it
unchanged. -/
theorem claim_C6_witness :
    '<' ∉ stripHtml "a  b".toList ∧ '&' ∉ stripHtml "a  b".toList ∧
      stripHtml (stripHtml "a  b".toList) = stripHtml "a  b".toList :=
  ⟨by decide, by decide, claim_C6 "a  b".toList (by decide) (by decide)⟩

end StackBrief
